import Mathlib

/-!
Verification of the columnar store implemented in src/tsdb.hh.

The C++ source is shallowly embedded as Lean definitions:

- machine bytes are modelled as natural numbers; a value of a trivially
  copyable C++ type is modelled as the list of its bytes;
- the u32 quantities of the source (struct sizes, alignments, handle
  values, field_begin) wrap modulo 2 ^ 32 exactly where the source
  performs u32 arithmetic; the u16 field counter wraps modulo 2 ^ 16;
- size_t quantities (vector lengths, row counters) are modelled as
  unbounded naturals: overflowing them requires on the order of 2 ^ 64
  operations and is thus not reachable in feasible executions, whereas
  the u32 layout arithmetic can be overflowed by a few dozen cheap
  registrations and is therefore modelled bit-faithfully;
- executions in which the source performs undefined behaviour (an
  unchecked out-of-bounds memory access) are marked by the error type
  UB below.  An Except.error result is NOT a controlled failure of the
  program: it marks the point where the real program silently touches
  invalid memory.  The source contains no assertion or error path in
  any of the operations modelled here (its only asserts sit inside
  align_up and concern the alignment argument, which is always a power
  of two at every reachable call site);
- const member functions are modelled as pure functions of the store
  value, which faithfully renders the fact that they cannot mutate it.
-/

set_option maxRecDepth 10000

namespace Tsdb

/-- Marks executions in which the C++ source performs undefined behaviour:
an unchecked access outside the bounds of the named buffer.  These are not
controlled failures; the real program silently reads or writes invalid
memory at this point. -/
inductive UB where
  /-- read past the end of the Schema type vector (invalid TypeHandle) -/
  | typesOOB
  /-- span or index past the end of a schema field vector or a table offset vector -/
  | fieldVecOOB
  /-- read past the end of the bytes of the value supplied by the caller -/
  | srcOOB
  /-- write past the end of the result buffer of the caller -/
  | dstOOB
  /-- read past the end of the data buffer of a column -/
  | colOOB
deriving DecidableEq

instance {ε α : Type} [DecidableEq ε] [DecidableEq α] : DecidableEq (Except ε α) := fun a b =>
  match a, b with
  | .ok x, .ok y => if h : x = y then .isTrue (by rw [h]) else .isFalse (by intro hc; cases hc; exact h rfl)
  | .error x, .error y => if h : x = y then .isTrue (by rw [h]) else .isFalse (by intro hc; cases hc; exact h rfl)
  | .ok _, .error _ => .isFalse (by intro hc; cases hc)
  | .error _, .ok _ => .isFalse (by intro hc; cases hc)

/-- A machine byte (the model does not need the upper bound 256). -/
abbrev Byte := Nat

/-- 2 ^ 32, the modulus of u32 arithmetic. -/
def U32LIM : Nat := 4294967296

/-- Embeds align_up from src/tsdb.hh line 14: in u32 arithmetic,
(value + alignment - 1) AND (complement of (alignment - 1)).
The u32 complement of (alignment - 1) is 2 ^ 32 - alignment for
alignment at least 1 (and the source asserts alignment is a nonzero
power of two, which holds at every reachable call site). -/
def align_up (value alignment : Nat) : Nat :=
  ((value + alignment - 1) % U32LIM) &&& ((U32LIM - alignment) % U32LIM)

/-- Embeds Schema::TypeMeta (src/tsdb.hh line 56).  kind_ holds the
underlying u8 value of the TypeKind enumeration; STRUCT is 13. -/
structure TypeMeta where
  size_ : Nat
  alignment_ : Nat
  field_begin_ : Nat
  field_count_ : Nat
  kind_ : Nat
deriving DecidableEq

/-- The underlying value of Schema::TypeKind::STRUCT. -/
def STRUCT_KIND : Nat := 13

/-- Embeds the Schema class state (src/tsdb.hh lines 144 to 149). -/
structure Schema where
  types_ : List TypeMeta
  type_names_ : List String
  field_types_ : List Nat
  field_offsets_ : List Nat
  field_names_ : List String
deriving DecidableEq

/-- Embeds the Schema constructor together with init_primitives
(src/tsdb.hh lines 67 and 130): the twelve primitive types, each with
alignment equal to its size and kind equal to its own index. -/
def Schema.init : Schema :=
  { types_ :=
      [ ⟨1, 1, 0, 0, 0⟩, ⟨2, 2, 0, 0, 1⟩, ⟨4, 4, 0, 0, 2⟩, ⟨8, 8, 0, 0, 3⟩
      , ⟨1, 1, 0, 0, 4⟩, ⟨2, 2, 0, 0, 5⟩, ⟨4, 4, 0, 0, 6⟩, ⟨8, 8, 0, 0, 7⟩
      , ⟨4, 4, 0, 0, 8⟩, ⟨8, 8, 0, 0, 9⟩
      , ⟨1, 1, 0, 0, 10⟩, ⟨8, 8, 0, 0, 11⟩ ]
  , type_names_ :=
      ["u8", "u16", "u32", "u64", "i8", "i16", "i32", "i64", "f32", "f64", "bool", "timestamp_ns"]
  , field_types_ := []
  , field_offsets_ := []
  , field_names_ := [] }

/-- Embeds Schema::meta_of (src/tsdb.hh line 110).  The source indexes
the types_ vector without any bound check; an out-of-range handle is an
out-of-bounds read, marked UB.typesOOB. -/
def Schema.meta_of (s : Schema) (h : Nat) : Except UB TypeMeta :=
  match s.types_.get? h with
  | some m => .ok m
  | none => .error .typesOOB

/-- Embeds Schema::size_of (src/tsdb.hh line 113). -/
def Schema.size_of (s : Schema) (h : Nat) : Except UB Nat :=
  (s.meta_of h).map (fun m => m.size_)

/-- Embeds Schema::align_of (src/tsdb.hh line 114). -/
def Schema.align_of (s : Schema) (h : Nat) : Except UB Nat :=
  (s.meta_of h).map (fun m => m.alignment_)

/-- Embeds Schema::kind_of (src/tsdb.hh line 112). -/
def Schema.kind_of (s : Schema) (h : Nat) : Except UB Nat :=
  (s.meta_of h).map (fun m => m.kind_)

/-- Embeds Schema::field_types (src/tsdb.hh line 116): the span of
field_count_ handles starting at field_begin_.  A span reaching past
the end of the vector is an out-of-bounds access. -/
def Schema.field_types (s : Schema) (h : Nat) : Except UB (List Nat) :=
  match s.types_.get? h with
  | none => .error .typesOOB
  | some m =>
    if m.field_begin_ + m.field_count_ ≤ s.field_types_.length then
      .ok ((s.field_types_.drop m.field_begin_).take m.field_count_)
    else .error .fieldVecOOB

/-- Embeds Schema::field_offsets (src/tsdb.hh line 120). -/
def Schema.field_offsets (s : Schema) (h : Nat) : Except UB (List Nat) :=
  match s.types_.get? h with
  | none => .error .typesOOB
  | some m =>
    if m.field_begin_ + m.field_count_ ≤ s.field_offsets_.length then
      .ok ((s.field_offsets_.drop m.field_begin_).take m.field_count_)
    else .error .fieldVecOOB

/-- Embeds the field loop of Schema::register_struct (src/tsdb.hh
lines 82 to 92): for each field, look up its meta (an unchecked vector
index), fold the maximum alignment, round the running size up to the
field alignment with align_up, record the offset, and add the field
size in u32 arithmetic.  Returns the extended schema, the running
struct size and the running alignment. -/
def Schema.register_fields_loop (s : Schema) (fields : List (String × Nat))
    (struct_size struct_alignment : Nat) : Except UB (Schema × Nat × Nat) :=
  match fields with
  | [] => .ok (s, struct_size, struct_alignment)
  | (field_name, ftype) :: rest =>
    match s.types_.get? ftype with
    | none => .error .typesOOB
    | some meta =>
      let align' := max struct_alignment meta.alignment_
      let off := align_up struct_size meta.alignment_
      let s' := { s with
        field_offsets_ := s.field_offsets_ ++ [off]
        field_types_ := s.field_types_ ++ [ftype]
        field_names_ := s.field_names_ ++ [field_name] }
      Schema.register_fields_loop s' rest ((off + meta.size_) % U32LIM) align'

/-- Embeds Schema::register_struct (src/tsdb.hh lines 74 to 108).
field_begin is the current length of the field vectors cast to u32,
the final size is align_up of the running size to the struct
alignment, the field count is the number of fields cast to u16, and
the new handle is the index of the appended TypeMeta cast to u32. -/
def Schema.register_struct (s : Schema) (name : String)
    (fields : List (String × Nat)) : Except UB (Schema × Nat) :=
  let field_begin := s.field_types_.length % U32LIM
  match Schema.register_fields_loop s fields 0 1 with
  | .error e => .error e
  | .ok (s', struct_size, struct_alignment) =>
    let size' := align_up struct_size struct_alignment
    let handle := s'.types_.length % U32LIM
    .ok ({ s' with
            types_ := s'.types_ ++
              [⟨size', struct_alignment, field_begin, fields.length % 65536, STRUCT_KIND⟩]
            type_names_ := s'.type_names_ ++ [name] }, handle)

/-- The bytes of the half-open range from off to off + len inside a byte
buffer (the source manipulates this range through pointer arithmetic
and memcpy). -/
def slice (l : List Byte) (off len : Nat) : List Byte :=
  (l.drop off).take len

/-- Overwrites the half-open range from off to off + len of dst with the
given bytes (the effect of memcpy(dst + off, bytes, len)). -/
def writeAt (dst : List Byte) (off : Nat) (bytes : List Byte) : List Byte :=
  dst.take off ++ bytes ++ dst.drop (off + bytes.length)

/-- Embeds the Column struct (src/tsdb.hh lines 152 to 180). -/
structure Column where
  elem_size_ : Nat
  data_ : List Byte
deriving DecidableEq

/-- Embeds Column::push (src/tsdb.hh line 157): appends elem_size_ bytes
to the data buffer.  The bytes handed over are the slice the caller
reads at its source pointer; the bound check for that read sits at the
call site in Table::insert_row, which is where the source pointer
arithmetic happens. -/
def Column.push (c : Column) (bytes : List Byte) : Column :=
  { c with data_ := c.data_ ++ bytes }

/-- Embeds Column::at (src/tsdb.hh line 163): the element bytes at index
row, that is elem_size_ bytes starting at row times elem_size_. -/
def Column.at' (c : Column) (row : Nat) : List Byte :=
  slice c.data_ (row * c.elem_size_) c.elem_size_

/-- Embeds Column::row_count (src/tsdb.hh line 167): data size divided by
element size, zero for a zero element size. -/
def Column.row_count (c : Column) : Nat :=
  if 0 < c.elem_size_ then c.data_.length / c.elem_size_ else 0

/-- Embeds Column::elem_size (src/tsdb.hh line 171). -/
def Column.elem_size (c : Column) : Nat := c.elem_size_

/-- Embeds the Table struct state (src/tsdb.hh lines 214 to 217). -/
structure Table where
  row_count_ : Nat
  field_offsets_ : List Nat
  columns_ : List Column
deriving DecidableEq

/-- Embeds the Table constructor (src/tsdb.hh line 184): one empty
column per field size. -/
def Table.new (field_sizes field_offsets : List Nat) : Table :=
  { row_count_ := 0
  , field_offsets_ := field_offsets
  , columns_ := field_sizes.map (fun sz => ⟨sz, []⟩) }

/-- Embeds the loop of Table::insert_row: for each column index i, push
the elem_size_ bytes of src starting at field_offsets_[i].  Reading the
offset vector past its end, or the source value past its end, is an
unchecked out-of-bounds access. -/
def Table.insert_cols : List Column → List Nat → List Byte → Except UB (List Column)
  | [], _, _ => .ok []
  | _ :: _, [], _ => .error .fieldVecOOB
  | c :: cs, o :: os, src =>
    if o + c.elem_size_ ≤ src.length then
      match Table.insert_cols cs os src with
      | .error e => .error e
      | .ok cs' => .ok (c.push (slice src o c.elem_size_) :: cs')
    else .error .srcOOB

/-- Embeds Table::insert_row (src/tsdb.hh lines 193 to 198): push one
slice of src into every column, then increment the row counter. -/
def Table.insert_row (t : Table) (src : List Byte) : Except UB Table :=
  match Table.insert_cols t.columns_ t.field_offsets_ src with
  | .error e => .error e
  | .ok cols => .ok { t with columns_ := cols, row_count_ := t.row_count_ + 1 }

/-- Embeds the loop of Table::read_row: for each column index i, copy the
element bytes of that column at the given row into dst at
field_offsets_[i].  Reading a column past its data, or writing dst past
its end, is an unchecked out-of-bounds access. -/
def Table.read_cols : List Column → List Nat → Nat → List Byte → Except UB (List Byte)
  | [], _, _, dst => .ok dst
  | _ :: _, [], _, _ => .error .fieldVecOOB
  | c :: cs, o :: os, row, dst =>
    if row * c.elem_size_ + c.elem_size_ ≤ c.data_.length then
      if o + c.elem_size_ ≤ dst.length then
        Table.read_cols cs os row (writeAt dst o (c.at' row))
      else .error .dstOOB
    else .error .colOOB

/-- Embeds Table::read_row (src/tsdb.hh lines 200 to 204). -/
def Table.read_row (t : Table) (row : Nat) (dst : List Byte) : Except UB (List Byte) :=
  Table.read_cols t.columns_ t.field_offsets_ row dst

/-- Embeds Table::row_count (src/tsdb.hh line 212): the stored counter. -/
def Table.row_count (t : Table) : Nat := t.row_count_

/-- Embeds the TSDB class state (src/tsdb.hh lines 303 to 304).  The
hash map from handle to Table is modelled as an association list with
unique keys; insertion order is irrelevant to lookup results. -/
structure TSDB where
  schema_ : Schema
  tables_ : List (Nat × Table)
deriving DecidableEq

/-- Embeds the TSDB constructor (src/tsdb.hh line 222); the est_num_types
argument only pre-reserves capacity and has no semantic effect. -/
def TSDB.new : TSDB := ⟨Schema.init, []⟩

/-- Embeds TSDB::register_struct (src/tsdb.hh line 228): forwards to the
schema. -/
def TSDB.register_struct (db : TSDB) (name : String)
    (fields : List (String × Nat)) : Except UB (TSDB × Nat) :=
  match db.schema_.register_struct name fields with
  | .error e => .error e
  | .ok (s', h) => .ok ({ db with schema_ := s' }, h)

/-- Embeds TSDB::get_table_ptr (src/tsdb.hh line 275): a pure lookup that
never creates a table. -/
def TSDB.get_table_ptr (db : TSDB) (h : Nat) : Option Table :=
  (db.tables_.find? (fun p => p.1 == h)).map (fun p => p.2)

/-- Replaces the table stored under a key (the in-place mutation of the
map entry through the reference returned by get_or_create_table). -/
def updateTable : List (Nat × Table) → Nat → Table → List (Nat × Table)
  | [], _, _ => []
  | (k, t) :: rest, h, t' =>
    if k = h then (k, t') :: rest else (k, t) :: updateTable rest h t'

/-- Embeds TSDB::get_or_create_table (src/tsdb.hh lines 281 to 301): on a
miss, build the field size list by looking up every field type in the
schema and emplace a fresh Table for the spans of the handle. -/
def TSDB.get_or_create_table (db : TSDB) (h : Nat) : Except UB (TSDB × Table) :=
  match db.get_table_ptr h with
  | some t => .ok (db, t)
  | none =>
    match db.schema_.field_types h with
    | .error e => .error e
    | .ok ftypes =>
      match db.schema_.field_offsets h with
      | .error e => .error e
      | .ok foffsets =>
        match ftypes.mapM (fun ft => db.schema_.size_of ft) with
        | .error e => .error e
        | .ok fsizes =>
          let t := Table.new fsizes foffsets
          .ok ({ db with tables_ := db.tables_ ++ [(h, t)] }, t)

/-- Embeds TSDB::insert (src/tsdb.hh lines 234 to 242) for a caller value
given by its byte list src.  The source performs no size validation of
any kind: it reinterprets the value as bytes and hands them to
Table::insert_row of the (lazily created) table. -/
def TSDB.insert (db : TSDB) (src : List Byte) (h : Nat) : Except UB TSDB :=
  match db.get_or_create_table h with
  | .error e => .error e
  | .ok (db₁, t) =>
    match t.insert_row src with
    | .error e => .error e
    | .ok t' => .ok { db₁ with tables_ := updateTable db₁.tables_ h t' }

/-- Embeds TSDB::query_first (src/tsdb.hh lines 244 to 258) for a caller
type of size tsize bytes: a zero value of the caller type if the table
is absent or empty, otherwise row 0 decoded over a zero buffer.  The
method is const in the source, hence a pure function here: it can
create no table. -/
def TSDB.query_first (db : TSDB) (h : Nat) (tsize : Nat) : Except UB (List Byte) :=
  match db.get_table_ptr h with
  | none => .ok (List.replicate tsize 0)
  | some t =>
    if t.row_count = 0 then .ok (List.replicate tsize 0)
    else t.read_row 0 (List.replicate tsize 0)

/-- The number of rows the store holds for a handle: the row counter of
its table, zero if no table exists. -/
def TSDB.row_count_of (db : TSDB) (h : Nat) : Nat :=
  match db.get_table_ptr h with
  | some t => t.row_count_
  | none => 0

/-- Iterates TSDB::insert n times with the same value and handle. -/
def TSDB.insertN (db : TSDB) (src : List Byte) (h : Nat) : Nat → Except UB TSDB
  | 0 => .ok db
  | n + 1 =>
    match db.insert src h with
    | .error e => .error e
    | .ok db' => db'.insertN src h n

/-!
The layout algorithm as the spec states it.  These definitions are the
spec side of the refinement claim C4 and are written from the words of
spec section 4.1 over unbounded naturals, independently of the source:
round the running offset up to the field alignment, record it, add the
field size, fold the maximum alignment, and finally round the running
offset up to the struct alignment.  spec_round_up v a is the least
multiple of a that is at least v, which the lemmas below establish.
-/

/-- Rounding up as the spec words it: the least multiple of the
alignment that is at least the running offset (a positive alignment is
assumed by the spec, which requires a power of two). -/
def spec_round_up (v a : Nat) : Nat := a * ((v + a - 1) / a)

/-- Result of the spec layout algorithm over a field list given as
(size, alignment) pairs: final running offset (the end of the last
field), accumulated alignment, and recorded offsets. -/
structure SpecLayout where
  endOff : Nat
  align : Nat
  offsets : List Nat
deriving DecidableEq

/-- The field loop of the spec layout algorithm, starting from a given
running offset and running alignment. -/
def spec_fields : List (Nat × Nat) → Nat → Nat → SpecLayout
  | [], off, al => ⟨off, al, []⟩
  | (fsz, fal) :: rest, off, al =>
    let o := spec_round_up off fal
    let r := spec_fields rest (o + fsz) (max al fal)
    ⟨r.endOff, r.align, o :: r.offsets⟩

/-- The final struct size of the spec layout algorithm: the running
offset after all fields, rounded up to the struct alignment. -/
def spec_struct_size (fs : List (Nat × Nat)) : Nat :=
  let r := spec_fields fs 0 1
  spec_round_up r.endOff r.align

/-- The (size, alignment) pairs of the registered metas of a field
list.  The fallback for an unregistered handle is irrelevant: every
lemma using this assumes all handles are in range. -/
def fieldMetas (s : Schema) (fields : List (String × Nat)) : List (Nat × Nat) :=
  fields.map (fun p =>
    match s.types_.get? p.2 with
    | some m => (m.size_, m.alignment_)
    | none => (0, 1))

/-- Well-formedness facts that hold for every schema reachable through
the public interface: every registered alignment is one of 1, 2, 4, 8
(primitives have alignment at most 8 and a struct alignment is a
maximum of field alignments), every registered size is a u32 value,
the vector lengths fit in u32, and the parallel field vectors have
equal length. -/
def Schema.WF (s : Schema) : Prop :=
  (∀ m ∈ s.types_,
      (m.alignment_ = 1 ∨ m.alignment_ = 2 ∨ m.alignment_ = 4 ∨ m.alignment_ = 8) ∧
      m.size_ < U32LIM)
  ∧ s.types_.length < U32LIM
  ∧ s.field_types_.length < U32LIM
  ∧ s.field_offsets_.length = s.field_types_.length

instance (s : Schema) : Decidable s.WF := by
  unfold Schema.WF; infer_instance

/-! Helper lemmas about the bit-mask form of align_up. -/

/-- Masking with 2 ^ w - 2 ^ k clears the k low bits: for x below 2 ^ w
this equals x minus its remainder modulo 2 ^ k. -/
theorem land_two_pow_sub (w k x : Nat) (hk : k ≤ w) (hx : x < 2 ^ w) :
    x &&& (2 ^ w - 2 ^ k) = x - x % 2 ^ k := by
  have hmask : 2 ^ w - 2 ^ k = 2 ^ k * (2 ^ (w - k) - 1) := by
    rw [Nat.mul_sub_one, ← Nat.pow_add]
    congr 2
    omega
  have hrhs : x - x % 2 ^ k = 2 ^ k * (x / 2 ^ k) := by
    have h := Nat.div_add_mod x (2 ^ k)
    omega
  rw [hmask, hrhs]
  apply Nat.eq_of_testBit_eq
  intro i
  rw [Nat.testBit_and, Nat.testBit_mul_pow_two, Nat.testBit_mul_pow_two,
    Nat.testBit_two_pow_sub_one]
  have hdiv : (x / 2 ^ k).testBit (i - k) = x.testBit (k + (i - k)) := by
    rw [← Nat.shiftRight_eq_div_pow, Nat.testBit_shiftRight]
  rw [hdiv]
  by_cases hik : k ≤ i
  · have : k + (i - k) = i := by omega
    rw [this]
    by_cases hiw : i < w
    · have : i - k < w - k := by omega
      simp [hik, this, ge_iff_le]
    · have hxf : x.testBit i = false := by
        apply Nat.testBit_lt_two_pow
        calc x < 2 ^ w := hx
          _ ≤ 2 ^ i := Nat.pow_le_pow_right (by omega) (by omega)
      simp [hxf]
  · simp [ge_iff_le, hik]

/-- For a power-of-two alignment and no u32 overflow of value +
alignment - 1, align_up computes exactly the spec rounding. -/
theorem align_up_eq_spec (v a k : Nat) (hk : a = 2 ^ k) (hkw : k ≤ 32)
    (hb : v + a - 1 < U32LIM) : align_up v a = spec_round_up v a := by
  have hU : U32LIM = 2 ^ 32 := by norm_num [U32LIM]
  have ha : 0 < a := by rw [hk]; exact Nat.pos_pow_of_pos k (by omega)
  have haU : a ≤ U32LIM := by
    rw [hU, hk]; exact Nat.pow_le_pow_right (by omega) hkw
  unfold align_up
  rw [Nat.mod_eq_of_lt hb, Nat.mod_eq_of_lt (by omega)]
  rw [hU, hk, land_two_pow_sub 32 k _ hkw (by rw [← hU, ← hk]; exact hb)]
  unfold spec_round_up
  have h := Nat.div_add_mod (v + a - 1) a
  rw [hk] at h
  omega

/-! Characterization of spec_round_up: least multiple of the alignment
that is at least the value. -/

theorem spec_round_up_ge (v a : Nat) (ha : 0 < a) : v ≤ spec_round_up v a := by
  unfold spec_round_up
  have h := Nat.div_add_mod (v + a - 1) a
  have h2 : (v + a - 1) % a < a := Nat.mod_lt _ ha
  omega

theorem spec_round_up_dvd (v a : Nat) : a ∣ spec_round_up v a :=
  Dvd.intro _ rfl

theorem spec_round_up_min (v a c : Nat) (ha : 0 < a) (hc : a ∣ c) (hvc : v ≤ c) :
    spec_round_up v a ≤ c := by
  obtain ⟨m, rfl⟩ := hc
  unfold spec_round_up
  apply Nat.mul_le_mul_left
  rw [Nat.div_le_iff_le_mul_add_pred ha]
  omega

theorem spec_round_up_of_dvd (v a : Nat) (ha : 0 < a) (h : a ∣ v) :
    spec_round_up v a = v :=
  Nat.le_antisymm (spec_round_up_min v a v ha h (Nat.le_refl v)) (spec_round_up_ge v a ha)

/-! Structural properties of the spec field loop. -/

theorem spec_fields_align_foldl (fs : List (Nat × Nat)) (off al : Nat) :
    (spec_fields fs off al).align = fs.foldl (fun a p => max a p.2) al := by
  induction fs generalizing off al with
  | nil => rfl
  | cons hd tl ih =>
    obtain ⟨fsz, fal⟩ := hd
    simp only [spec_fields, List.foldl_cons]
    exact ih _ _

theorem spec_fields_offsets_length (fs : List (Nat × Nat)) (off al : Nat) :
    (spec_fields fs off al).offsets.length = fs.length := by
  induction fs generalizing off al with
  | nil => rfl
  | cons hd tl ih =>
    obtain ⟨fsz, fal⟩ := hd
    simp only [spec_fields, List.length_cons]
    rw [ih]

theorem spec_fields_endOff_le (fs : List (Nat × Nat)) (off al : Nat)
    (hpos : ∀ p ∈ fs, 0 < p.2) : off ≤ (spec_fields fs off al).endOff := by
  induction fs generalizing off al with
  | nil => exact Nat.le_refl off
  | cons hd tl ih =>
    obtain ⟨fsz, fal⟩ := hd
    have hfal : 0 < fal := hpos _ (List.mem_cons_self _ _)
    have h1 : off ≤ spec_round_up off fal := spec_round_up_ge off fal hfal
    have h2 := ih (spec_round_up off fal + fsz) (max al fal)
      (fun p hp => hpos p (List.mem_cons_of_mem _ hp))
    simp only [spec_fields]
    omega

theorem spec_fields_align_le (fs : List (Nat × Nat)) (off al : Nat) :
    al ≤ (spec_fields fs off al).align := by
  induction fs generalizing off al with
  | nil => exact Nat.le_refl al
  | cons hd tl ih =>
    obtain ⟨fsz, fal⟩ := hd
    simp only [spec_fields]
    exact Nat.le_trans (Nat.le_max_left al fal) (ih _ _)

theorem spec_fields_align_cases (fs : List (Nat × Nat)) (off al : Nat)
    (hal : al = 1 ∨ al = 2 ∨ al = 4 ∨ al = 8)
    (hfs : ∀ p ∈ fs, p.2 = 1 ∨ p.2 = 2 ∨ p.2 = 4 ∨ p.2 = 8) :
    (spec_fields fs off al).align = 1 ∨ (spec_fields fs off al).align = 2 ∨
    (spec_fields fs off al).align = 4 ∨ (spec_fields fs off al).align = 8 := by
  induction fs generalizing off al with
  | nil => exact hal
  | cons hd tl ih =>
    obtain ⟨fsz, fal⟩ := hd
    have hfal := hfs _ (List.mem_cons_self _ _)
    simp only [spec_fields]
    apply ih
    · rcases hal with h | h | h | h <;> rcases hfal with h' | h' | h' | h' <;>
        simp only [h, h'] <;> omega
    · exact fun p hp => hfs p (List.mem_cons_of_mem _ hp)

/-- The recorded offsets of the spec field loop: every offset is at
least the starting offset, is a multiple of the alignment of its own
field, and the end of each field (offset plus size) is at most the next
offset, the last one being at most the final running offset. -/
theorem spec_fields_offsets_props (fs : List (Nat × Nat)) (off al : Nat)
    (hpos : ∀ p ∈ fs, 0 < p.2) :
    (∀ i, i < fs.length → off ≤ (spec_fields fs off al).offsets.getD i 0) ∧
    (∀ i, i < fs.length →
      (fs.getD i (0, 1)).2 ∣ (spec_fields fs off al).offsets.getD i 0) ∧
    (∀ i, i < fs.length →
      (spec_fields fs off al).offsets.getD i 0 + (fs.getD i (0, 1)).1 ≤
        (if i + 1 < fs.length then (spec_fields fs off al).offsets.getD (i + 1) 0
         else (spec_fields fs off al).endOff)) ∧
    (fs ≠ [] →
      (spec_fields fs off al).offsets.getD (fs.length - 1) 0 +
        (fs.getD (fs.length - 1) (0, 1)).1 = (spec_fields fs off al).endOff) := by
  induction fs generalizing off al with
  | nil =>
    exact ⟨fun i hi => by simp at hi, fun i hi => by simp at hi,
      fun i hi => by simp at hi, fun h => absurd rfl h⟩
  | cons hd tl ih =>
    obtain ⟨fsz, fal⟩ := hd
    have hfal : 0 < fal := hpos _ (List.mem_cons_self _ _)
    have htl : ∀ p ∈ tl, 0 < p.2 := fun p hp => hpos p (List.mem_cons_of_mem _ hp)
    obtain ⟨ih1, ih2, ih3, ih4⟩ := ih (spec_round_up off fal + fsz) (max al fal) htl
    have hge : off ≤ spec_round_up off fal := spec_round_up_ge off fal hfal
    have hlen := spec_fields_offsets_length tl (spec_round_up off fal + fsz) (max al fal)
    have hend := spec_fields_endOff_le tl (spec_round_up off fal + fsz) (max al fal) htl
    refine ⟨?_, ?_, ?_, ?_⟩
    · intro i hi
      match i with
      | 0 => simpa [spec_fields] using hge
      | Nat.succ j =>
        simp only [spec_fields, List.getD_cons_succ]
        have := ih1 j (by simpa using hi)
        omega
    · intro i hi
      match i with
      | 0 => simpa [spec_fields] using spec_round_up_dvd off fal
      | Nat.succ j =>
        simp only [spec_fields, List.getD_cons_succ]
        exact ih2 j (by simpa using hi)
    · intro i hi
      match i with
      | 0 =>
        simp only [spec_fields, List.getD_cons_zero, List.length_cons]
        by_cases h1 : 0 + 1 < tl.length + 1
        · have h2 : tl.length ≠ 0 := by omega
          simp only [h1, if_pos]
          have := ih1 0 (by omega)
          simpa [List.getD_cons_succ] using this
        · have h2 : tl = [] := by
            cases tl with
            | nil => rfl
            | cons a b => simp at h1
          subst h2
          simp [spec_fields]
      | Nat.succ j =>
        have hj : j < tl.length := by simpa using hi
        have := ih3 j hj
        simp only [spec_fields, List.getD_cons_succ, List.length_cons]
        by_cases h1 : j + 1 < tl.length
        · simp only [h1, if_pos] at this
          have h2 : j + 1 + 1 < tl.length + 1 := by omega
          simpa [h2] using this
        · simp only [h1, if_neg, Bool.false_eq_true] at this
          have h2 : ¬ (j + 1 + 1 < tl.length + 1) := by omega
          simpa [h2] using this
    · intro _
      by_cases h2 : tl = []
      · subst h2
        simp [spec_fields]
      · have := ih4 h2
        have hlen2 : 0 < tl.length := List.length_pos.mpr h2
        have h3 : (fsz, fal) :: tl ≠ [] := by simp
        simp only [spec_fields, List.length_cons]
        have h4 : tl.length + 1 - 1 = (tl.length - 1) + 1 := by omega
        rw [h4]
        simpa [List.getD_cons_succ] using this

/-! Bridging the embedded register loop to the spec layout algorithm. -/

theorem pow_two_of_cases (a : Nat) (h : a = 1 ∨ a = 2 ∨ a = 4 ∨ a = 8) :
    ∃ k, k ≤ 3 ∧ a = 2 ^ k := by
  rcases h with h | h | h | h
  · exact ⟨0, by omega, by norm_num [h]⟩
  · exact ⟨1, by omega, by norm_num [h]⟩
  · exact ⟨2, by omega, by norm_num [h]⟩
  · exact ⟨3, by omega, by norm_num [h]⟩

theorem align_up_eq_spec_of_cases (v a : Nat)
    (h : a = 1 ∨ a = 2 ∨ a = 4 ∨ a = 8) (hb : v + 8 ≤ U32LIM) :
    align_up v a = spec_round_up v a := by
  obtain ⟨k, hk3, hk⟩ := pow_two_of_cases a h
  apply align_up_eq_spec v a k hk (by omega)
  have : a ≤ 8 := by rcases h with h | h | h | h <;> omega
  omega

theorem fieldMetas_align_cases (s : Schema) (fields : List (String × Nat))
    (hWFa : ∀ m ∈ s.types_,
      m.alignment_ = 1 ∨ m.alignment_ = 2 ∨ m.alignment_ = 4 ∨ m.alignment_ = 8) :
    ∀ p ∈ fieldMetas s fields, p.2 = 1 ∨ p.2 = 2 ∨ p.2 = 4 ∨ p.2 = 8 := by
  intro p hp
  obtain ⟨q, _, rfl⟩ := List.mem_map.mp hp
  cases hget : s.types_.get? q.2 with
  | none => simp [hget]
  | some m =>
    have hm : m ∈ s.types_ := List.get?_mem hget
    simpa [hget] using hWFa m hm

theorem fieldMetas_pos (s : Schema) (fields : List (String × Nat))
    (hWFa : ∀ m ∈ s.types_,
      m.alignment_ = 1 ∨ m.alignment_ = 2 ∨ m.alignment_ = 4 ∨ m.alignment_ = 8) :
    ∀ p ∈ fieldMetas s fields, 0 < p.2 := by
  intro p hp
  have := fieldMetas_align_cases s fields hWFa p hp
  omega

/-- The register loop of the source, run without u32 overflow, produces
exactly the offsets, running size and running alignment of the spec
layout algorithm, appended to the schema field vectors in order, and
touches nothing else of the schema state. -/
theorem register_fields_loop_spec (fields : List (String × Nat)) (s : Schema)
    (size align : Nat)
    (hv : ∀ p ∈ fields, p.2 < s.types_.length)
    (hWFa : ∀ m ∈ s.types_,
      m.alignment_ = 1 ∨ m.alignment_ = 2 ∨ m.alignment_ = 4 ∨ m.alignment_ = 8)
    (hWFs : ∀ m ∈ s.types_, m.size_ < U32LIM)
    (hno : (spec_fields (fieldMetas s fields) size align).endOff + 8 ≤ U32LIM) :
    ∃ s', Schema.register_fields_loop s fields size align =
        .ok (s', (spec_fields (fieldMetas s fields) size align).endOff,
                 (spec_fields (fieldMetas s fields) size align).align) ∧
      s'.types_ = s.types_ ∧ s'.type_names_ = s.type_names_ ∧
      s'.field_offsets_ = s.field_offsets_ ++ (spec_fields (fieldMetas s fields) size align).offsets ∧
      s'.field_types_ = s.field_types_ ++ fields.map (fun p => p.2) ∧
      s'.field_names_ = s.field_names_ ++ fields.map (fun p => p.1) := by
  induction fields generalizing s size align with
  | nil =>
    exact ⟨s, rfl, rfl, rfl, by simp [spec_fields, fieldMetas],
      by simp, by simp⟩
  | cons hd tl ih =>
    obtain ⟨fname, ft⟩ := hd
    have hft : ft < s.types_.length := hv _ (List.mem_cons_self _ _)
    have hget : s.types_.get? ft = some (s.types_.get ⟨ft, hft⟩) :=
      List.get?_eq_get hft
    set m := s.types_.get ⟨ft, hft⟩ with hm
    have hget2 : s.types_[ft]? = some m := by
      rw [← List.get?_eq_getElem?]; exact hget
    have hmem : m ∈ s.types_ := List.get_mem s.types_ ft hft
    have hmal := hWFa m hmem
    have hmsz := hWFs m hmem
    have hmetas : fieldMetas s ((fname, ft) :: tl) =
        (m.size_, m.alignment_) :: fieldMetas s tl := by
      simp [fieldMetas, hget2]
    set o := spec_round_up size m.alignment_ with ho
    set E := spec_fields (fieldMetas s tl) (o + m.size_) (max align m.alignment_) with hE
    have hEfull : spec_fields (fieldMetas s ((fname, ft) :: tl)) size align =
        ⟨E.endOff, E.align, o :: E.offsets⟩ := by
      rw [hmetas, hE, ho]
      rfl
    have hpos := fieldMetas_pos s tl hWFa
    have hEle : o + m.size_ ≤ E.endOff := by
      rw [hE]; exact spec_fields_endOff_le _ _ _ hpos
    have hnoE : E.endOff + 8 ≤ U32LIM := by
      rw [hEfull] at hno; exact hno
    have hmalpos : 0 < m.alignment_ := by rcases hmal with h | h | h | h <;> omega
    have hsize_le : size ≤ o := by
      rw [ho]; exact spec_round_up_ge size m.alignment_ hmalpos
    have halign_up : align_up size m.alignment_ = o :=
      ho ▸ align_up_eq_spec_of_cases size m.alignment_ hmal (by omega)
    have hmod : (o + m.size_) % U32LIM = o + m.size_ :=
      Nat.mod_eq_of_lt (by omega)
    set s₁ : Schema :=
      { s with
          field_offsets_ := s.field_offsets_ ++ [o]
          field_types_ := s.field_types_ ++ [ft]
          field_names_ := s.field_names_ ++ [fname] } with hs₁
    have hty1 : s₁.types_ = s.types_ := by rw [hs₁]
    have h₁fo : s₁.field_offsets_ = s.field_offsets_ ++ [o] := by rw [hs₁]
    have h₁ft : s₁.field_types_ = s.field_types_ ++ [ft] := by rw [hs₁]
    have h₁fn : s₁.field_names_ = s.field_names_ ++ [fname] := by rw [hs₁]
    have h₁tn : s₁.type_names_ = s.type_names_ := by rw [hs₁]
    have hfm1 : fieldMetas s₁ tl = fieldMetas s tl := by rw [hs₁]; rfl
    have hv2 : ∀ p ∈ tl, p.2 < s₁.types_.length := by
      rw [hty1]; exact fun p hp => hv p (List.mem_cons_of_mem _ hp)
    have hWFa2 : ∀ q ∈ s₁.types_,
        q.alignment_ = 1 ∨ q.alignment_ = 2 ∨ q.alignment_ = 4 ∨ q.alignment_ = 8 := by
      rw [hty1]; exact hWFa
    have hWFs2 : ∀ q ∈ s₁.types_, q.size_ < U32LIM := by
      rw [hty1]; exact hWFs
    have hnoE2 : (spec_fields (fieldMetas s₁ tl) (o + m.size_)
        (max align m.alignment_)).endOff + 8 ≤ U32LIM := by
      rw [hfm1, ← hE]; exact hnoE
    obtain ⟨s'', hloop, hty, htn, hfo, hftv, hfn⟩ :=
      ih s₁ (o + m.size_) (max align m.alignment_) hv2 hWFa2 hWFs2 hnoE2
    rw [hfm1, ← hE] at hloop hfo
    refine ⟨s'', ?_, by rw [hty, hty1], by rw [htn, h₁tn], ?_, ?_, ?_⟩
    · rw [hEfull]
      simp only [Schema.register_fields_loop, hget, halign_up, hmod]
      rw [← hs₁]
      exact hloop
    · rw [hEfull, hfo, h₁fo]
      simp
    · rw [hftv, h₁ft]
      simp
    · rw [hfn, h₁fn]
      simp

/-- Source register_struct against the spec layout algorithm: on a
well-formed schema, with registered field handles, fewer than 2 ^ 16
fields and no u32 overflow of the running offset, the registered
TypeMeta carries exactly the spec struct size and alignment, the new
handle is the previous type count, and the recorded offsets are the
spec offsets. -/
theorem register_struct_spec (s : Schema) (name : String)
    (fields : List (String × Nat))
    (hWF : s.WF)
    (hv : ∀ p ∈ fields, p.2 < s.types_.length)
    (hfc : fields.length < 65536)
    (hno : (spec_fields (fieldMetas s fields) 0 1).endOff + 8 ≤ U32LIM) :
    ∃ s', s.register_struct name fields = .ok (s', s.types_.length) ∧
      s'.types_ = s.types_ ++
        [⟨spec_struct_size (fieldMetas s fields),
          (spec_fields (fieldMetas s fields) 0 1).align,
          s.field_types_.length, fields.length, STRUCT_KIND⟩] ∧
      s'.type_names_ = s.type_names_ ++ [name] ∧
      s'.field_types_ = s.field_types_ ++ fields.map (fun p => p.2) ∧
      s'.field_offsets_ = s.field_offsets_ ++ (spec_fields (fieldMetas s fields) 0 1).offsets ∧
      s'.field_names_ = s.field_names_ ++ fields.map (fun p => p.1) ∧
      s'.meta_of s.types_.length = .ok
        ⟨spec_struct_size (fieldMetas s fields),
         (spec_fields (fieldMetas s fields) 0 1).align,
         s.field_types_.length, fields.length, STRUCT_KIND⟩ ∧
      s'.field_offsets s.types_.length = .ok (spec_fields (fieldMetas s fields) 0 1).offsets ∧
      s'.field_types s.types_.length = .ok (fields.map (fun p => p.2)) := by
  obtain ⟨hWF1, hWFt, hWFft, hWFeq⟩ := hWF
  have hWFa : ∀ m ∈ s.types_,
      m.alignment_ = 1 ∨ m.alignment_ = 2 ∨ m.alignment_ = 4 ∨ m.alignment_ = 8 :=
    fun m hm => (hWF1 m hm).1
  have hWFs : ∀ m ∈ s.types_, m.size_ < U32LIM := fun m hm => (hWF1 m hm).2
  obtain ⟨sL, hloop, hty, htn, hfo, hftv, hfn⟩ :=
    register_fields_loop_spec fields s 0 1 hv hWFa hWFs hno
  set E := spec_fields (fieldMetas s fields) 0 1 with hE
  have halcases : E.align = 1 ∨ E.align = 2 ∨ E.align = 4 ∨ E.align = 8 := by
    rw [hE]
    exact spec_fields_align_cases _ _ _ (by omega) (fieldMetas_align_cases s fields hWFa)
  have hfinal : align_up E.endOff E.align = spec_round_up E.endOff E.align :=
    align_up_eq_spec_of_cases _ _ halcases (by omega)
  have hssz : spec_round_up E.endOff E.align = spec_struct_size (fieldMetas s fields) := by
    rw [spec_struct_size, ← hE]
  have hbegin : s.field_types_.length % U32LIM = s.field_types_.length :=
    Nat.mod_eq_of_lt hWFft
  have hhandle : sL.types_.length % U32LIM = s.types_.length := by
    rw [hty]; exact Nat.mod_eq_of_lt hWFt
  have hcount : fields.length % 65536 = fields.length := Nat.mod_eq_of_lt hfc
  have hmetaslen : (fieldMetas s fields).length = fields.length := by
    simp [fieldMetas]
  have hoffslen : E.offsets.length = fields.length := by
    rw [hE, spec_fields_offsets_length, hmetaslen]
  refine ⟨{ sL with
      types_ := sL.types_ ++
        [⟨align_up E.endOff E.align, E.align,
          s.field_types_.length % U32LIM, fields.length % 65536, STRUCT_KIND⟩]
      type_names_ := sL.type_names_ ++ [name] }, ?_, ?_, ?_, ?_, ?_, ?_, ?_, ?_, ?_⟩
  · simp only [Schema.register_struct, hloop, hhandle]
  · rw [hty, hfinal, hssz, hbegin, hcount]
  · rw [htn]
  · exact hftv
  · rw [hfo, hE]
  · exact hfn
  · show Schema.meta_of _ _ = _
    unfold Schema.meta_of
    have : (sL.types_ ++
        [(⟨align_up E.endOff E.align, E.align,
          s.field_types_.length % U32LIM, fields.length % 65536, STRUCT_KIND⟩ : TypeMeta)]).get?
        s.types_.length = some ⟨align_up E.endOff E.align, E.align,
          s.field_types_.length % U32LIM, fields.length % 65536, STRUCT_KIND⟩ := by
      rw [show s.types_.length = sL.types_.length by rw [hty]]
      exact List.get?_concat_length _ _
    rw [hfinal, hssz, hbegin, hcount] at this
    rw [hfinal, hssz, hbegin, hcount]
    simp only [this]
  · show Schema.field_offsets _ _ = _
    unfold Schema.field_offsets
    rw [hfinal, hssz, hbegin, hcount]
    have hgl : (sL.types_ ++
        [(⟨align_up E.endOff E.align, E.align,
          s.field_types_.length % U32LIM, fields.length % 65536, STRUCT_KIND⟩ : TypeMeta)]).get?
        s.types_.length = some ⟨align_up E.endOff E.align, E.align,
          s.field_types_.length % U32LIM, fields.length % 65536, STRUCT_KIND⟩ := by
      rw [show s.types_.length = sL.types_.length by rw [hty]]
      exact List.get?_concat_length _ _
    rw [hfinal, hssz, hbegin, hcount] at hgl
    simp only [hgl, hfo]
    rw [if_pos (by simp [hoffslen]; omega)]
    rw [show s.field_types_.length = s.field_offsets_.length from hWFeq.symm]
    rw [List.drop_left, ← hoffslen, List.take_length]
  · show Schema.field_types _ _ = _
    unfold Schema.field_types
    rw [hfinal, hssz, hbegin, hcount]
    have hgl : (sL.types_ ++
        [(⟨align_up E.endOff E.align, E.align,
          s.field_types_.length % U32LIM, fields.length % 65536, STRUCT_KIND⟩ : TypeMeta)]).get?
        s.types_.length = some ⟨align_up E.endOff E.align, E.align,
          s.field_types_.length % U32LIM, fields.length % 65536, STRUCT_KIND⟩ := by
      rw [show s.types_.length = sL.types_.length by rw [hty]]
      exact List.get?_concat_length _ _
    rw [hfinal, hssz, hbegin, hcount] at hgl
    simp only [hgl, hftv]
    rw [if_pos (by simp)]
    rw [List.drop_left]
    rw [show fields.length = (fields.map (fun p => p.2)).length by simp, List.take_length]

/-- A schema that doubles a struct size at every step: level 0 is the
u64 primitive (handle 3, size 8), level n + 1 registers a struct with
two fields of level n, so level n has size 2 ^ (n + 3).  Registering
level 29 overflows the u32 running offset of register_struct.  The
error fallback never fires: every field handle is registered. -/
def chainSchema : Nat → Schema × Nat
  | 0 => (Schema.init, 3)
  | n + 1 =>
    let p := chainSchema n
    match p.1.register_struct "B" [("x", p.2), ("y", p.2)] with
    | .ok q => q
    | .error _ => p

/-- C4, counterexample.  The claim states that register_struct follows
the spec layout algorithm (round up, record, add, take maxima, round
the total up).  At level 29 of the doubling chain the two fields have
size 2 ^ 31 and alignment 8, so the algorithm yields struct size
2 ^ 32 = 4294967296; the source, computing in u32, wraps and registers
struct size 0. -/
theorem c4_counterexample :
    (chainSchema 28).1.size_of (chainSchema 28).2 = .ok 2147483648 ∧
    (chainSchema 28).1.align_of (chainSchema 28).2 = .ok 8 ∧
    ((chainSchema 28).1.register_struct "B29"
        [("x", (chainSchema 28).2), ("y", (chainSchema 28).2)]).map
      (fun p => p.1.size_of p.2) = .ok (.ok 0) ∧
    spec_struct_size [(2147483648, 8), (2147483648, 8)] = 4294967296 ∧
    (0 : Nat) ≠ 4294967296 :=
  ⟨by decide, by decide, by decide, by decide, by decide⟩

/-- C4, amended: register_struct computes the layout by the specified
algorithm as long as the u32 running offset does not overflow and the
u16 field counter does not wrap (fewer than 2 ^ 16 fields); under those
provisos the registered size, alignment and offsets are exactly those
of the spec algorithm.  The concrete instance holds: fields of
(size 1, align 1), (size 8, align 8), (size 4, align 4) in that order
yield offsets [0, 8, 16], struct alignment 8 and struct size 24. -/
theorem c4_layout_algorithm :
    (∀ (s : Schema) (name : String) (fields : List (String × Nat)),
      s.WF → (∀ p ∈ fields, p.2 < s.types_.length) → fields.length < 65536 →
      (spec_fields (fieldMetas s fields) 0 1).endOff + 8 ≤ U32LIM →
      ∃ s', s.register_struct name fields = .ok (s', s.types_.length) ∧
        s'.size_of s.types_.length = .ok (spec_struct_size (fieldMetas s fields)) ∧
        s'.align_of s.types_.length = .ok (spec_fields (fieldMetas s fields) 0 1).align ∧
        s'.field_offsets s.types_.length = .ok (spec_fields (fieldMetas s fields) 0 1).offsets)
    ∧ fieldMetas Schema.init [("a", 0), ("b", 3), ("c", 2)] = [(1, 1), (8, 8), (4, 4)]
    ∧ (Schema.init.register_struct "S" [("a", 0), ("b", 3), ("c", 2)]).map
        (fun p => (p.2, p.1.size_of p.2, p.1.align_of p.2, p.1.field_offsets p.2)) =
      .ok (12, .ok 24, .ok 8, .ok [0, 8, 16]) := by
  refine ⟨?_, by decide, by decide⟩
  intro s name fields hWF hv hfc hno
  obtain ⟨s', hreg, _, _, _, _, _, hmeta, hoffs, _⟩ :=
    register_struct_spec s name fields hWF hv hfc hno
  refine ⟨s', hreg, ?_, ?_, hoffs⟩
  · unfold Schema.size_of
    rw [hmeta]
    rfl
  · unfold Schema.align_of
    rw [hmeta]
    rfl

/-- C4, witness: the general part applied to a one-field struct over
the u64 primitive on the fresh schema. -/
theorem c4_layout_algorithm_witness :
    ∃ s', Schema.init.register_struct "V" [("x", 3)] =
        .ok (s', Schema.init.types_.length) ∧
      s'.size_of Schema.init.types_.length =
        .ok (spec_struct_size (fieldMetas Schema.init [("x", 3)])) ∧
      s'.align_of Schema.init.types_.length =
        .ok (spec_fields (fieldMetas Schema.init [("x", 3)]) 0 1).align ∧
      s'.field_offsets Schema.init.types_.length =
        .ok (spec_fields (fieldMetas Schema.init [("x", 3)]) 0 1).offsets :=
  c4_layout_algorithm.1 Schema.init "V" [("x", 3)]
    (by decide) (by decide) (by decide) (by decide)

/-- C5, counterexample.  The claim asserts that every struct registered
with already-registered field handles has non-decreasing field offsets
and non-overlapping field ranges.  Registering a struct with fields of
the level 28 chain type (size 2 ^ 31, alignment 8) twice and then a
u64 yields offsets [0, 2147483648, 0]: the third offset decreases, and
the byte range of the third field, [0, 8), overlaps the range of the
first, [0, 2 ^ 31). -/
theorem c5_counterexample :
    (chainSchema 28).1.size_of (chainSchema 28).2 = .ok 2147483648 ∧
    ((chainSchema 28).1.register_struct "T"
        [("a", (chainSchema 28).2), ("b", (chainSchema 28).2), ("c", 3)]).map
      (fun p => (p.1.field_offsets p.2, p.1.size_of p.2)) =
      .ok (.ok [0, 2147483648, 0], .ok 8) ∧
    ¬ ((2147483648 : Nat) ≤ 0) ∧
    ¬ ((0 : Nat) + 2147483648 ≤ 0 ∨ (0 : Nat) + 8 ≤ 0) :=
  ⟨by decide, by decide, by decide, by decide⟩

/-- C5, amended: for every struct registered through register_struct
with already-registered field handles on a well-formed schema, with
fewer than 2 ^ 16 fields and no u32 overflow of the running offset,
the stored TypeMeta satisfies all the claimed invariants: alignment is
the maximum of the field alignments and 1, every offset is a multiple
of the alignment of its own field, offsets are non-decreasing, the
byte ranges of distinct fields do not overlap, and the total size is
the least multiple of the struct alignment at least the end of the
last field. -/
theorem c5_layout_invariants :
    ∀ (s : Schema) (name : String) (fields : List (String × Nat)),
      s.WF → (∀ p ∈ fields, p.2 < s.types_.length) → fields.length < 65536 →
      (spec_fields (fieldMetas s fields) 0 1).endOff + 8 ≤ U32LIM →
      ∃ s' m offs, s.register_struct name fields = .ok (s', s.types_.length) ∧
        s'.meta_of s.types_.length = .ok m ∧
        s'.field_offsets s.types_.length = .ok offs ∧
        m.alignment_ = (fieldMetas s fields).foldl (fun a p => max a p.2) 1 ∧
        offs.length = fields.length ∧
        (∀ i, i < fields.length → ((fieldMetas s fields).getD i (0, 1)).2 ∣ offs.getD i 0) ∧
        (∀ i j, i ≤ j → j < fields.length → offs.getD i 0 ≤ offs.getD j 0) ∧
        (∀ i j, i < j → j < fields.length →
          offs.getD i 0 + ((fieldMetas s fields).getD i (0, 1)).1 ≤ offs.getD j 0) ∧
        (fields ≠ [] →
          offs.getD (fields.length - 1) 0 +
              ((fieldMetas s fields).getD (fields.length - 1) (0, 1)).1 ≤ m.size_ ∧
          m.alignment_ ∣ m.size_ ∧
          (∀ c, m.alignment_ ∣ c →
            offs.getD (fields.length - 1) 0 +
              ((fieldMetas s fields).getD (fields.length - 1) (0, 1)).1 ≤ c →
            m.size_ ≤ c)) := by
  intro s name fields hWF hv hfc hno
  obtain ⟨s', hreg, _, _, _, _, _, hmeta, hoffs, _⟩ :=
    register_struct_spec s name fields hWF hv hfc hno
  set F := fieldMetas s fields with hF
  set E := spec_fields F 0 1 with hE
  have hWFa : ∀ q ∈ s.types_,
      q.alignment_ = 1 ∨ q.alignment_ = 2 ∨ q.alignment_ = 4 ∨ q.alignment_ = 8 :=
    fun q hq => (hWF.1 q hq).1
  have hpos : ∀ p ∈ F, 0 < p.2 := by
    rw [hF]; exact fieldMetas_pos s fields hWFa
  have hFlen : F.length = fields.length := by rw [hF]; simp [fieldMetas]
  obtain ⟨hp1, hp2, hp3, hp4⟩ := spec_fields_offsets_props F 0 1 hpos
  have hOlen : E.offsets.length = fields.length := by
    rw [hE, spec_fields_offsets_length, hFlen]
  have halpos : 0 < E.align := by
    have := spec_fields_align_le F 0 1
    rw [hE]; omega
  have hstep : ∀ i, i + 1 < fields.length →
      E.offsets.getD i 0 ≤ E.offsets.getD (i + 1) 0 := by
    intro i hi
    have h := hp3 i (by omega)
    rw [if_pos (by omega)] at h
    rw [hE] at *
    omega
  have hmono : ∀ j, j < fields.length → ∀ i, i ≤ j →
      E.offsets.getD i 0 ≤ E.offsets.getD j 0 := by
    intro j
    induction j with
    | zero =>
      intro _ i hi
      have : i = 0 := by omega
      rw [this]
    | succ j ih =>
      intro hj i hi
      rcases Nat.lt_or_ge i (j + 1) with h | h
      · calc E.offsets.getD i 0 ≤ E.offsets.getD j 0 := ih (by omega) i (by omega)
          _ ≤ E.offsets.getD (j + 1) 0 := hstep j hj
      · have : i = j + 1 := by omega
        rw [this]
  refine ⟨s', ⟨spec_struct_size F, E.align, s.field_types_.length, fields.length,
    STRUCT_KIND⟩, E.offsets, hreg, hmeta, hoffs, ?_, hOlen, ?_, ?_, ?_, ?_⟩
  · show E.align = _
    rw [hE, spec_fields_align_foldl]
  · intro i hi
    have := hp2 i (by omega)
    rw [← hE] at this
    rw [hF]
    exact this
  · intro i j hij hj
    exact hmono j hj i hij
  · intro i j hij hj
    have h := hp3 i (by rw [hFlen]; omega)
    have h2 : E.offsets.getD i 0 + (F.getD i (0, 1)).1 ≤ E.offsets.getD (i + 1) 0 := by
      rw [if_pos (by rw [hFlen]; omega)] at h
      rw [← hE] at h
      exact h
    calc E.offsets.getD i 0 + (F.getD i (0, 1)).1
        ≤ E.offsets.getD (i + 1) 0 := h2
      _ ≤ E.offsets.getD j 0 := hmono j hj (i + 1) (by omega)
  · intro hne
    have hne2 : F ≠ [] := by
      intro hc
      apply hne
      rw [← List.length_eq_zero, ← hFlen, hc]
      rfl
    have hlast := hp4 hne2
    rw [← hE, hFlen] at hlast
    have hsz : spec_struct_size F = spec_round_up E.endOff E.align := by
      rw [spec_struct_size, ← hE]
    refine ⟨?_, ?_, ?_⟩
    · show _ ≤ spec_struct_size F
      rw [hsz, hlast]
      exact spec_round_up_ge _ _ halpos
    · show E.align ∣ spec_struct_size F
      rw [hsz]
      exact spec_round_up_dvd _ _
    · intro c hdvd hc
      show spec_struct_size F ≤ c
      rw [hsz]
      exact spec_round_up_min _ _ c halpos hdvd (by rw [hlast] at hc; exact hc)

/-- C5, witness: the amended invariants applied to a concrete Vec3
struct of three f64 fields on the fresh schema. -/
theorem c5_layout_invariants_witness :
    ∃ s' m offs, Schema.init.register_struct "Vec3" [("x", 9), ("y", 9), ("z", 9)] =
        .ok (s', Schema.init.types_.length) ∧
      s'.meta_of Schema.init.types_.length = .ok m ∧
      s'.field_offsets Schema.init.types_.length = .ok offs ∧
      m.alignment_ = (fieldMetas Schema.init [("x", 9), ("y", 9), ("z", 9)]).foldl
        (fun a p => max a p.2) 1 ∧
      offs.length = 3 ∧
      (∀ i, i < 3 →
        ((fieldMetas Schema.init [("x", 9), ("y", 9), ("z", 9)]).getD i (0, 1)).2 ∣ offs.getD i 0) ∧
      (∀ i j, i ≤ j → j < 3 → offs.getD i 0 ≤ offs.getD j 0) ∧
      (∀ i j, i < j → j < 3 →
        offs.getD i 0 + ((fieldMetas Schema.init [("x", 9), ("y", 9), ("z", 9)]).getD i (0, 1)).1 ≤
          offs.getD j 0) ∧
      ([("x", 9), ("y", 9), ("z", 9)] ≠ ([] : List (String × Nat)) →
        offs.getD 2 0 +
            ((fieldMetas Schema.init [("x", 9), ("y", 9), ("z", 9)]).getD 2 (0, 1)).1 ≤ m.size_ ∧
        m.alignment_ ∣ m.size_ ∧
        (∀ c, m.alignment_ ∣ c →
          offs.getD 2 0 +
            ((fieldMetas Schema.init [("x", 9), ("y", 9), ("z", 9)]).getD 2 (0, 1)).1 ≤ c →
          m.size_ ≤ c)) :=
  c5_layout_invariants Schema.init "Vec3" [("x", 9), ("y", 9), ("z", 9)]
    (by decide) (by decide) (by decide) (by decide)

/-! Byte-buffer lemmas: slices and in-place range writes. -/

theorem slice_length (l : List Byte) (off len : Nat) (h : off + len ≤ l.length) :
    (slice l off len).length = len := by
  simp [slice]
  omega

theorem slice_get? (l : List Byte) (off len j : Nat) (hj : j < len) :
    (slice l off len).get? j = l.get? (off + j) := by
  unfold slice
  rw [List.get?_take hj, List.get?_drop]

theorem slice_zero_full (l : List Byte) (len : Nat) (h : l.length = len) :
    slice l 0 len = l := by
  unfold slice
  rw [List.drop_zero, ← h, List.take_length]

theorem writeAt_length (dst : List Byte) (off : Nat) (bytes : List Byte)
    (h : off + bytes.length ≤ dst.length) :
    (writeAt dst off bytes).length = dst.length := by
  simp [writeAt]
  omega

theorem writeAt_get?_lt (dst : List Byte) (off : Nat) (bytes : List Byte) (q : Nat)
    (hq : q < off) (hoff : off ≤ dst.length) :
    (writeAt dst off bytes).get? q = dst.get? q := by
  unfold writeAt
  have hlen : (dst.take off).length = off := by simp; omega
  rw [List.append_assoc, List.get?_append (by omega), List.get?_take hq]

theorem writeAt_get?_mid (dst : List Byte) (off : Nat) (bytes : List Byte) (q : Nat)
    (h1 : off ≤ q) (h2 : q < off + bytes.length) (hoff : off ≤ dst.length) :
    (writeAt dst off bytes).get? q = bytes.get? (q - off) := by
  unfold writeAt
  have hlen : (dst.take off).length = off := by simp; omega
  rw [List.append_assoc, List.get?_append_right (by omega), hlen,
    List.get?_append (by omega)]

theorem writeAt_get?_ge (dst : List Byte) (off : Nat) (bytes : List Byte) (q : Nat)
    (hq : off + bytes.length ≤ q) (hb : off + bytes.length ≤ dst.length) :
    (writeAt dst off bytes).get? q = dst.get? q := by
  unfold writeAt
  have hlen : (dst.take off).length = off := by simp; omega
  rw [List.append_assoc, List.get?_append_right (by omega), hlen,
    List.get?_append_right (by omega), List.get?_drop]
  congr 1
  omega

/-! Behaviour of the insert and read column loops. -/

/-- The insert loop over fresh columns (one empty column of each field
size, as Table.new builds them): with every field range inside the
source value, it succeeds and each column receives exactly the slice
of the value at its field offset. -/
theorem insert_cols_new (szs offs : List Nat) (v : List Byte)
    (hlen : szs.length ≤ offs.length)
    (hb : ∀ i, i < szs.length → offs.getD i 0 + szs.getD i 0 ≤ v.length) :
    Table.insert_cols (szs.map (fun sz => ⟨sz, []⟩)) offs v =
      .ok (List.zipWith (fun sz o => (⟨sz, slice v o sz⟩ : Column)) szs offs) := by
  induction szs generalizing offs with
  | nil => simp [Table.insert_cols]
  | cons sz rest ih =>
    cases offs with
    | nil => simp at hlen
    | cons o os =>
      have h0 := hb 0 (by simp)
      simp only [List.getD_cons_zero] at h0
      simp only [List.map_cons, Table.insert_cols, List.zipWith_cons_cons]
      rw [if_pos h0]
      rw [ih os (by simpa using hlen)
        (fun i hi => by simpa using hb (i + 1) (by simpa using hi))]
      simp [Column.push]

/-- The insert loop is determined by the slices of the value at the
field ranges: two values that agree on every field range, both large
enough to contain them, are inserted identically. -/
theorem insert_cols_congr (cols : List Column) (offs : List Nat) (v₁ v₂ : List Byte)
    (hb₁ : ∀ i, i < cols.length →
      offs.getD i 0 + (cols.getD i ⟨0, []⟩).elem_size_ ≤ v₁.length)
    (hb₂ : ∀ i, i < cols.length →
      offs.getD i 0 + (cols.getD i ⟨0, []⟩).elem_size_ ≤ v₂.length)
    (hs : ∀ i, i < cols.length →
      slice v₁ (offs.getD i 0) ((cols.getD i ⟨0, []⟩).elem_size_) =
      slice v₂ (offs.getD i 0) ((cols.getD i ⟨0, []⟩).elem_size_)) :
    Table.insert_cols cols offs v₁ = Table.insert_cols cols offs v₂ := by
  induction cols generalizing offs with
  | nil => rfl
  | cons c cs ih =>
    cases offs with
    | nil => rfl
    | cons o os =>
      have h1 := hb₁ 0 (by simp)
      have h2 := hb₂ 0 (by simp)
      simp only [List.getD_cons_zero] at h1 h2
      have h3 := hs 0 (by simp)
      simp only [List.getD_cons_zero] at h3
      simp only [Table.insert_cols]
      rw [if_pos h1, if_pos h2, h3,
        ih os (fun i hi => by simpa using hb₁ (i + 1) (by simpa using hi))
          (fun i hi => by simpa using hb₂ (i + 1) (by simpa using hi))
          (fun i hi => by simpa using hs (i + 1) (by simpa using hi))]

/-- All fields of a list of (offset, size) columns lie at offsets of at
least b, and each field ends before the next begins. -/
def chained_from (b : Nat) : List Nat → List Nat → Prop
  | o :: os, sz :: szs => b ≤ o ∧ chained_from (o + sz) os szs
  | _, _ => True

theorem chained_from_of_indexed (offs : List Nat) (szs : List Nat) (b : Nat)
    (h0 : offs ≠ [] → b ≤ offs.getD 0 0)
    (hstep : ∀ i, i + 1 < offs.length →
      offs.getD i 0 + szs.getD i 0 ≤ offs.getD (i + 1) 0) :
    chained_from b offs szs := by
  induction offs generalizing szs b with
  | nil => cases szs <;> trivial
  | cons o os ih =>
    cases szs with
    | nil => trivial
    | cons sz rest =>
      refine ⟨by simpa using h0 (by simp), ?_⟩
      apply ih
      · intro hne
        have hlen : 0 + 1 < (o :: os).length := by
          cases os with
          | nil => simp at hne
          | cons _ _ => simp
        simpa using hstep 0 hlen
      · intro i hi
        simpa using hstep (i + 1) (by simpa using hi)

/-- The read loop at row 0 over single-row columns holding the field
slices of a value v: with chained non-overlapping fields inside both
buffers, it succeeds; the result keeps the buffer length, carries the
bytes of v on every field range, and leaves every position below the
chain bound or outside all field ranges untouched. -/
theorem read_cols_fresh (offs : List Nat) (szs : List Nat) (v dst : List Byte) (b : Nat)
    (hlen : szs.length = offs.length)
    (hch : chained_from b offs szs)
    (hb : ∀ i, i < offs.length → offs.getD i 0 + szs.getD i 0 ≤ dst.length)
    (hv : ∀ i, i < offs.length → offs.getD i 0 + szs.getD i 0 ≤ v.length) :
    ∃ w, Table.read_cols (List.zipWith (fun sz o => (⟨sz, slice v o sz⟩ : Column)) szs offs)
        offs 0 dst = .ok w ∧
      w.length = dst.length ∧
      (∀ q, q < b → w.get? q = dst.get? q) ∧
      (∀ q, (∀ i, i < offs.length → q < offs.getD i 0 ∨ offs.getD i 0 + szs.getD i 0 ≤ q) →
        w.get? q = dst.get? q) ∧
      (∀ i, i < offs.length → ∀ j, j < szs.getD i 0 →
        w.get? (offs.getD i 0 + j) = v.get? (offs.getD i 0 + j)) := by
  induction offs generalizing szs dst b with
  | nil =>
    refine ⟨dst, ?_, rfl, fun q _ => rfl, fun q _ => rfl, fun i hi => by simp at hi⟩
    cases szs <;> rfl
  | cons o os ih =>
    cases szs with
    | nil => simp at hlen
    | cons sz rest =>
      obtain ⟨hbo, hchr⟩ := hch
      have hb0 : o + sz ≤ dst.length := by simpa using hb 0 (by simp)
      have hv0 : o + sz ≤ v.length := by simpa using hv 0 (by simp)
      have hslen : (slice v o sz).length = sz := slice_length v o sz hv0
      have hat : (⟨sz, slice v o sz⟩ : Column).at' 0 = slice v o sz := by
        unfold Column.at'
        show slice (slice v o sz) (0 * sz) sz = _
        rw [Nat.zero_mul]
        exact slice_zero_full _ _ hslen
      have hwlen : (writeAt dst o (slice v o sz)).length = dst.length := by
        rw [writeAt_length]
        rw [hslen]
        omega
      obtain ⟨w, hrun, hwl, hbelow, hout, hfield⟩ :=
        ih rest (writeAt dst o (slice v o sz)) (o + sz)
          (by simpa using hlen) hchr
          (fun i hi => by
            rw [hwlen]
            simpa using hb (i + 1) (by simpa using hi))
          (fun i hi => by simpa using hv (i + 1) (by simpa using hi))
      refine ⟨w, ?_, by rw [hwl, hwlen], ?_, ?_, ?_⟩
      · simp only [List.zipWith_cons_cons, Table.read_cols]
        rw [if_pos (by show 0 * sz + sz ≤ (slice v o sz).length; rw [hslen]; omega),
          if_pos (by show o + sz ≤ dst.length; omega), hat]
        exact hrun
      · intro q hq
        rw [hbelow q (by omega), writeAt_get?_lt dst o _ q (by omega) (by omega)]
      · intro q hq
        have hqo := hq 0 (by simp)
        simp only [List.getD_cons_zero] at hqo
        rw [hout q (fun i hi => by simpa using hq (i + 1) (by simpa using hi))]
        rcases hqo with h | h
        · exact writeAt_get?_lt dst o _ q h (by omega)
        · apply writeAt_get?_ge dst o _ q <;> rw [hslen] <;> omega
      · intro i hi j hj
        match i with
        | 0 =>
          simp only [List.getD_cons_zero] at hj ⊢
          rw [hbelow (o + j) (by omega),
            writeAt_get?_mid dst o _ (o + j) (by omega) (by rw [hslen]; omega) (by omega),
            Nat.add_sub_cancel_left, slice_get? v o sz j hj]
        | Nat.succ k =>
          simp only [List.getD_cons_succ] at hj ⊢
          exact hfield k (by simpa using hi) j hj

/-! Lemmas about the table map: lookups after emplace and after
replacing the entry of a key. -/

theorem find?_append_self (l : List (Nat × Table)) (h : Nat) (t : Table)
    (hnone : l.find? (fun p => p.1 == h) = none) :
    (l ++ [(h, t)]).find? (fun p => p.1 == h) = some (h, t) := by
  rw [List.find?_append, hnone]
  simp

theorem find?_append_ne (l : List (Nat × Table)) (h : Nat) (t : Table) (k : Nat)
    (hk : k ≠ h) :
    (l ++ [(h, t)]).find? (fun p => p.1 == k) = l.find? (fun p => p.1 == k) := by
  rw [List.find?_append]
  cases hfl : l.find? (fun p => p.1 == k) with
  | some p => rfl
  | none =>
    simp only [Option.none_or]
    rw [List.find?_cons_of_neg]
    · rfl
    · simp
      omega

theorem find?_updateTable_self (l : List (Nat × Table)) (h : Nat) (t' : Table) :
    (updateTable l h t').find? (fun p => p.1 == h) =
      (l.find? (fun p => p.1 == h)).map (fun _ => (h, t')) := by
  induction l with
  | nil => rfl
  | cons e rest ih =>
    obtain ⟨k, t⟩ := e
    by_cases hk : k = h
    · subst hk
      simp [updateTable]
    · have hbeq : (((k, t) : Nat × Table).1 == h) = false := beq_eq_false_iff_ne.mpr hk
      have hbeq' : (((k, t') : Nat × Table).1 == h) = false := beq_eq_false_iff_ne.mpr hk
      simp only [updateTable, if_neg hk, List.find?_cons, hbeq, hbeq']
      exact ih

theorem find?_updateTable_ne (l : List (Nat × Table)) (h : Nat) (t' : Table) (k : Nat)
    (hk : k ≠ h) :
    (updateTable l h t').find? (fun p => p.1 == k) = l.find? (fun p => p.1 == k) := by
  induction l with
  | nil => rfl
  | cons e rest ih =>
    obtain ⟨k₀, t₀⟩ := e
    by_cases hk₀ : k₀ = h
    · have hb1 : (((k₀, t') : Nat × Table).1 == k) = false :=
        beq_eq_false_iff_ne.mpr (fun hc => hk (hc.symm.trans hk₀))
      have hb2 : (((k₀, t₀) : Nat × Table).1 == k) = false :=
        beq_eq_false_iff_ne.mpr (fun hc => hk (hc.symm.trans hk₀))
      simp only [updateTable, if_pos hk₀, List.find?_cons, hb1, hb2]
    · simp only [updateTable, if_neg hk₀, List.find?_cons]
      cases hbk : (((k₀, t₀) : Nat × Table).1 == k) with
      | true => rfl
      | false => exact ih

/-! Behaviour of a single insert at the store level. -/

theorem insert_row_shape (t : Table) (v : List Byte) (t' : Table)
    (h : t.insert_row v = .ok t') :
    t'.row_count_ = t.row_count_ + 1 ∧ t'.field_offsets_ = t.field_offsets_ := by
  unfold Table.insert_row at h
  cases hic : Table.insert_cols t.columns_ t.field_offsets_ v with
  | error e => rw [hic] at h; cases h
  | ok cols => rw [hic] at h; cases h; exact ⟨rfl, rfl⟩

/-- What TSDB::get_or_create_table guarantees about its result: the
schema is untouched, the handle now maps to the returned table, other
handles are untouched, and the returned table has the row count the
store holds for the handle. -/
theorem get_or_create_cases (db : TSDB) (h : Nat) (db₁ : TSDB) (t : Table)
    (hok : db.get_or_create_table h = .ok (db₁, t)) :
    db₁.schema_ = db.schema_ ∧
    db₁.get_table_ptr h = some t ∧
    (∀ k, k ≠ h → db₁.get_table_ptr k = db.get_table_ptr k) ∧
    t.row_count_ = db.row_count_of h := by
  unfold TSDB.get_or_create_table at hok
  cases hfind : db.get_table_ptr h with
  | some t₀ =>
    rw [hfind] at hok
    cases hok
    exact ⟨rfl, hfind, fun k _ => rfl, by unfold TSDB.row_count_of; rw [hfind]⟩
  | none =>
    rw [hfind] at hok
    cases hft : db.schema_.field_types h with
    | error e => simp only [hft] at hok; exact Except.noConfusion hok
    | ok ftypes =>
      simp only [hft] at hok
      cases hfo : db.schema_.field_offsets h with
      | error e => simp only [hfo] at hok; exact Except.noConfusion hok
      | ok foffsets =>
        simp only [hfo] at hok
        cases hsz : ftypes.mapM (fun ft => db.schema_.size_of ft) with
        | error e => simp only [hsz] at hok; exact Except.noConfusion hok
        | ok fsizes =>
          simp only [hsz, Except.ok.injEq, Prod.mk.injEq] at hok
          obtain ⟨hdb₁, ht⟩ := hok
          subst ht
          have hfnone : db.tables_.find? (fun p => p.1 == h) = none := by
            unfold TSDB.get_table_ptr at hfind
            cases hf : db.tables_.find? (fun p => p.1 == h) with
            | none => rfl
            | some p => rw [hf] at hfind; simp at hfind
          refine ⟨?_, ?_, ?_, ?_⟩
          · rw [← hdb₁]
          · rw [← hdb₁]
            have hred : (TSDB.mk db.schema_
                (db.tables_ ++ [(h, Table.new fsizes foffsets)])).get_table_ptr h =
                ((db.tables_ ++ [(h, Table.new fsizes foffsets)]).find?
                  (fun p => p.1 == h)).map (fun p => p.2) := rfl
            rw [hred, find?_append_self _ _ _ hfnone]
            rfl
          · intro k hk
            rw [← hdb₁]
            have hred : (TSDB.mk db.schema_
                (db.tables_ ++ [(h, Table.new fsizes foffsets)])).get_table_ptr k =
                ((db.tables_ ++ [(h, Table.new fsizes foffsets)]).find?
                  (fun p => p.1 == k)).map (fun p => p.2) := rfl
            rw [hred, find?_append_ne _ _ _ _ hk]
            rfl
          · show (0 : Nat) = db.row_count_of h
            unfold TSDB.row_count_of
            rw [hfind]

/-- A successful insert leaves the schema unchanged, increments the row
count of its handle by one, and leaves the table of every other handle
untouched. -/
theorem insert_effects (db : TSDB) (v : List Byte) (h : Nat) (db' : TSDB)
    (hok : db.insert v h = .ok db') :
    db'.schema_ = db.schema_ ∧
    db'.row_count_of h = db.row_count_of h + 1 ∧
    (∀ k, k ≠ h → db'.get_table_ptr k = db.get_table_ptr k) := by
  unfold TSDB.insert at hok
  cases hg : db.get_or_create_table h with
  | error e => rw [hg] at hok; cases hok
  | ok p =>
    obtain ⟨db₁, t⟩ := p
    simp only [hg] at hok
    cases hir : t.insert_row v with
    | error e => simp only [hir] at hok; exact Except.noConfusion hok
    | ok t' =>
      simp only [hir, Except.ok.injEq] at hok
      subst hok
      obtain ⟨hsch, hself, hother, hrc⟩ := get_or_create_cases db h db₁ t hg
      obtain ⟨hrc', _⟩ := insert_row_shape t v t' hir
      refine ⟨hsch, ?_, ?_⟩
      · unfold TSDB.row_count_of TSDB.get_table_ptr
        rw [show (TSDB.mk db₁.schema_ (updateTable db₁.tables_ h t')).tables_ =
            updateTable db₁.tables_ h t' from rfl]
        rw [find?_updateTable_self]
        unfold TSDB.get_table_ptr at hself
        cases hf : db₁.tables_.find? (fun p => p.1 == h) with
        | none => rw [hf] at hself; simp at hself
        | some q =>
          show t'.row_count_ = _
          rw [hrc', hrc]
          rfl
      · intro k hk
        unfold TSDB.get_table_ptr
        rw [show (TSDB.mk db₁.schema_ (updateTable db₁.tables_ h t')).tables_ =
            updateTable db₁.tables_ h t' from rfl]
        rw [find?_updateTable_ne _ _ _ _ hk]
        exact hother k hk

/-- The field loop of register_struct never touches the type vector or
the type name vector, whatever its inputs. -/
theorem register_fields_loop_types (fields : List (String × Nat)) (s : Schema)
    (size align : Nat) (s' : Schema) (a b : Nat)
    (h : Schema.register_fields_loop s fields size align = .ok (s', a, b)) :
    s'.types_ = s.types_ ∧ s'.type_names_ = s.type_names_ := by
  induction fields generalizing s size align with
  | nil =>
    cases h
    exact ⟨rfl, rfl⟩
  | cons hd tl ih =>
    obtain ⟨fname, ft⟩ := hd
    unfold Schema.register_fields_loop at h
    cases hget : s.types_.get? ft with
    | none => rw [hget] at h; exact Except.noConfusion h
    | some m =>
      simp only [hget] at h
      have hr := ih _ _ _ h
      exact ⟨hr.1, hr.2⟩

/-- C2, counterexample.  The claim states that an operation given a
handle at least the number of registered types fails fast with an
assertion or explicit error and never silently reads out-of-bounds
memory, in particular that insert does not read past the end of the
type table.  On a fresh store (12 registered types), insert with
handle 50 does exactly that: the model reaches the unchecked
types_[50] access, marked UB.typesOOB, which in the source is a silent
read past the end of the type vector, not an assertion or error
path. -/
theorem c2_counterexample :
    TSDB.new.schema_.types_.length = 12 ∧
    (12 : Nat) ≤ 50 ∧
    TSDB.new.insert [0] 50 = .error UB.typesOOB ∧
    TSDB.new.query_first 50 4 = .ok (List.replicate 4 0) :=
  ⟨by decide, by decide, by decide, by decide⟩

/-- C2, amended: no handle validation exists.  An insert with an
out-of-range handle (and no table under it) performs an unchecked read
past the end of the type table — undefined behaviour, not a controlled
failure — and query_first with an out-of-range handle for which no
table exists silently returns a zero value instead of failing. -/
theorem c2_unchecked_handle :
    (∀ (db : TSDB) (h : Nat) (v : List Byte),
      db.schema_.types_.length ≤ h → db.get_table_ptr h = none →
      db.insert v h = .error UB.typesOOB) ∧
    (∀ (db : TSDB) (h sz : Nat), db.get_table_ptr h = none →
      db.query_first h sz = .ok (List.replicate sz 0)) := by
  constructor
  · intro db h v hge hnone
    unfold TSDB.insert TSDB.get_or_create_table
    rw [hnone]
    unfold Schema.field_types
    rw [List.get?_eq_none.mpr hge]
  · intro db h sz hnone
    unfold TSDB.query_first
    rw [hnone]

/-- C2, witness: the amended statement applied to a fresh store and
handle 50. -/
theorem c2_unchecked_handle_witness :
    TSDB.new.insert [0] 50 = .error UB.typesOOB ∧
    TSDB.new.query_first 50 4 = .ok (List.replicate 4 0) :=
  ⟨c2_unchecked_handle.1 TSDB.new 50 [0] (by decide) (by decide),
   c2_unchecked_handle.2 TSDB.new 50 4 (by decide)⟩

/-- C6: query_first against an absent or empty table is not an error
and returns a zero-filled value of the caller size.  query_first
is a const member in the source, embedded as a pure function of the
store, so it cannot create a table or change any state; its table
lookup goes through get_table_ptr, which only searches the map. -/
theorem c6_query_empty_zero :
    ∀ (db : TSDB) (h sz : Nat),
      (db.get_table_ptr h = none ∨
        ∃ t, db.get_table_ptr h = some t ∧ t.row_count = 0) →
      db.query_first h sz = .ok (List.replicate sz 0) := by
  intro db h sz hcase
  unfold TSDB.query_first
  rcases hcase with hnone | ⟨t, hsome, hrc⟩
  · rw [hnone]
  · simp only [hsome]
    rw [if_pos hrc]

/-- C6, witness: a fresh store with an arbitrary struct handle. -/
theorem c6_query_empty_zero_witness :
    TSDB.new.query_first 12 8 = .ok (List.replicate 8 0) :=
  c6_query_empty_zero TSDB.new 12 8 (Or.inl (by decide))

/-- C7: row counts grow by exactly one per successful insert, so N
successful inserts add N to the row count of the handle (starting from
zero for a previously absent table); no insert, into this or any other
handle, ever decreases a row count; an insert leaves the type registry
untouched, and register_struct only appends one TypeMeta and leaves
all tables untouched. -/
theorem c7_row_count :
    (∀ (db : TSDB) (v : List Byte) (h n : Nat) (db' : TSDB),
      db.insertN v h n = .ok db' →
      db'.row_count_of h = db.row_count_of h + n) ∧
    (∀ (db : TSDB) (v : List Byte) (hA : Nat) (db' : TSDB) (k : Nat),
      db.insert v hA = .ok db' →
      db.row_count_of k ≤ db'.row_count_of k) ∧
    (∀ (db : TSDB) (v : List Byte) (h : Nat) (db' : TSDB),
      db.insert v h = .ok db' → db'.schema_ = db.schema_) ∧
    (∀ (db : TSDB) (name : String) (fields : List (String × Nat)) (db' : TSDB) (hh : Nat),
      db.register_struct name fields = .ok (db', hh) →
      (∃ mm, db'.schema_.types_ = db.schema_.types_ ++ [mm]) ∧
      db'.tables_ = db.tables_) := by
  refine ⟨?_, ?_, ?_, ?_⟩
  · intro db v h n
    induction n generalizing db with
    | zero =>
      intro db' hok
      cases hok
      rfl
    | succ k ih =>
      intro db' hok
      unfold TSDB.insertN at hok
      cases hi : db.insert v h with
      | error e => simp only [hi] at hok; exact Except.noConfusion hok
      | ok dbm =>
        simp only [hi] at hok
        have h1 := ih dbm db' hok
        have h2 := (insert_effects db v h dbm hi).2.1
        omega
  · intro db v hA db' k hok
    by_cases hk : k = hA
    · subst hk
      have := (insert_effects db v k db' hok).2.1
      omega
    · have := (insert_effects db v hA db' hok).2.2 k hk
      unfold TSDB.row_count_of
      rw [this]
  · intro db v h db' hok
    exact (insert_effects db v h db' hok).1
  · intro db name fields db' hh hok
    unfold TSDB.register_struct at hok
    cases hreg : db.schema_.register_struct name fields with
    | error e => rw [hreg] at hok; exact Except.noConfusion hok
    | ok p =>
      obtain ⟨s', h'⟩ := p
      simp only [hreg, Except.ok.injEq, Prod.mk.injEq] at hok
      obtain ⟨hdb', _⟩ := hok
      subst hdb'
      unfold Schema.register_struct at hreg
      cases hloop : Schema.register_fields_loop db.schema_ fields 0 1 with
      | error e => rw [hloop] at hreg; exact Except.noConfusion hreg
      | ok q =>
        obtain ⟨sL, sz, al⟩ := q
        simp only [hloop, Except.ok.injEq, Prod.mk.injEq] at hreg
        obtain ⟨hs', _⟩ := hreg
        obtain ⟨hty, _⟩ := register_fields_loop_types fields db.schema_ 0 1 sL sz al hloop
        constructor
        · refine ⟨⟨align_up sz al, al, db.schema_.field_types_.length % U32LIM,
            fields.length % 65536, STRUCT_KIND⟩, ?_⟩
          rw [← hs']
          show sL.types_ ++ _ = _
          rw [hty]
        · rfl

/-- C7, witness: three inserts of a u32 value on a fresh store leave
row count 3 (a primitive table has no columns, see C10, but its row
counter still advances). -/
theorem c7_row_count_witness :
    TSDB.new.insertN [1, 2, 3, 4] 2 3 = .ok ⟨Schema.init, [(2, ⟨3, [], []⟩)]⟩ ∧
    (⟨Schema.init, [(2, ⟨3, [], []⟩)]⟩ : TSDB).row_count_of 2 =
      TSDB.new.row_count_of 2 + 3 :=
  ⟨by decide, c7_row_count.1 TSDB.new [1, 2, 3, 4] 2 3 _ (by decide)⟩

/-- C8: a successful insert with handle A leaves the table of every
other handle B byte-for-byte unchanged — the stored Table value, hence
its row count and the data of every one of its columns, is the same
before and after. -/
theorem c8_cross_type_isolation :
    ∀ (db : TSDB) (v : List Byte) (A : Nat) (db' : TSDB),
      db.insert v A = .ok db' →
      ∀ B, B ≠ A →
        db'.get_table_ptr B = db.get_table_ptr B ∧
        db'.row_count_of B = db.row_count_of B := by
  intro db v A db' hok B hB
  have h := (insert_effects db v A db' hok).2.2 B hB
  refine ⟨h, ?_⟩
  unfold TSDB.row_count_of
  rw [h]

/-- C8, witness: inserting a u8 value on a fresh store leaves the (absent)
u64 table absent with row count 0. -/
theorem c8_cross_type_isolation_witness :
    TSDB.new.insert [7] 0 = .ok ⟨Schema.init, [(0, ⟨1, [], []⟩)]⟩ ∧
    ((⟨Schema.init, [(0, ⟨1, [], []⟩)]⟩ : TSDB).get_table_ptr 3 =
        TSDB.new.get_table_ptr 3 ∧
      (⟨Schema.init, [(0, ⟨1, [], []⟩)]⟩ : TSDB).row_count_of 3 =
        TSDB.new.row_count_of 3) :=
  ⟨by decide,
   c8_cross_type_isolation TSDB.new [7] 0 _ (by decide) 3 (by decide)⟩

/-- C10: for every store and every handle whose registered TypeMeta
has field count 0 (every primitive meta is built by init_primitives
with field_begin_ = 0 and field_count_ = 0), inserting any value
lazily creates a Table with zero columns when none exists, stores
none of the bytes of the value, and still increments the row count;
any later insert into that zero-column table again stores nothing
and increments; and query_first with that handle then returns the
zero value of whatever caller size is asked, not the inserted one.
The last conjunct pins the example of the claim: the TypeMeta of
TSDB::U32 (handle 2) has field count 0. -/
theorem c10_primitive_insert :
    (∀ (db : TSDB) (h : Nat) (m : TypeMeta) (v : List Byte) (sz : Nat),
      db.schema_.meta_of h = .ok m →
      m.field_count_ = 0 →
      m.field_begin_ = 0 →
      db.get_table_ptr h = none →
      ∃ db', db.insert v h = .ok db' ∧
        db'.get_table_ptr h = some ⟨1, [], []⟩ ∧
        db'.row_count_of h = 1 ∧
        db'.query_first h sz = .ok (List.replicate sz 0)) ∧
    (∀ (db : TSDB) (h : Nat) (v : List Byte) (sz : Nat) (n : Nat) (fo : List Nat),
      db.get_table_ptr h = some ⟨n, fo, []⟩ →
      ∃ db', db.insert v h = .ok db' ∧
        db'.get_table_ptr h = some ⟨n + 1, fo, []⟩ ∧
        db'.query_first h sz = .ok (List.replicate sz 0)) ∧
    Schema.init.meta_of 2 = .ok ⟨4, 4, 0, 0, 2⟩ := by
  refine ⟨?_, ?_, by decide⟩
  · intro db h m v sz hmeta hfc hfb hnone
    have hget : db.schema_.types_.get? h = some m := by
      unfold Schema.meta_of at hmeta
      cases hg : db.schema_.types_.get? h with
      | none => rw [hg] at hmeta; exact Except.noConfusion hmeta
      | some m' => rw [hg] at hmeta; cases hmeta; rfl
    have hfts : db.schema_.field_types h = .ok [] := by
      unfold Schema.field_types
      simp only [hget]
      rw [if_pos (by rw [hfc, hfb]; omega), hfc]
      rfl
    have hoffs : db.schema_.field_offsets h = .ok [] := by
      unfold Schema.field_offsets
      simp only [hget]
      rw [if_pos (by rw [hfc, hfb]; omega), hfc]
      rfl
    have hok : db.get_or_create_table h =
        .ok (⟨db.schema_, db.tables_ ++ [(h, Table.new [] [])]⟩, Table.new [] []) := by
      unfold TSDB.get_or_create_table
      rw [hnone]
      simp only [hfts, hoffs]
      rfl
    have hrow : (Table.new [] []).insert_row v = .ok ⟨1, [], []⟩ := rfl
    have hins : db.insert v h = .ok ⟨db.schema_,
        updateTable (db.tables_ ++ [(h, Table.new [] [])]) h ⟨1, [], []⟩⟩ := by
      unfold TSDB.insert
      simp only [hok, hrow]
    have hfnone : db.tables_.find? (fun p => p.1 == h) = none := by
      unfold TSDB.get_table_ptr at hnone
      cases hf : db.tables_.find? (fun p => p.1 == h) with
      | none => rfl
      | some q => rw [hf] at hnone; simp at hnone
    have hfind' : (TSDB.mk db.schema_
        (updateTable (db.tables_ ++ [(h, Table.new [] [])]) h ⟨1, [], []⟩)).get_table_ptr h =
        some ⟨1, [], []⟩ := by
      unfold TSDB.get_table_ptr
      rw [show (TSDB.mk db.schema_
          (updateTable (db.tables_ ++ [(h, Table.new [] [])]) h ⟨1, [], []⟩)).tables_ =
          updateTable (db.tables_ ++ [(h, Table.new [] [])]) h ⟨1, [], []⟩ from rfl]
      rw [find?_updateTable_self, find?_append_self _ _ _ hfnone]
      rfl
    refine ⟨_, hins, hfind', ?_, ?_⟩
    · unfold TSDB.row_count_of
      rw [hfind']
    · unfold TSDB.query_first
      simp only [hfind']
      rw [if_neg (show ¬((⟨1, [], []⟩ : Table).row_count = 0) from by
        simp [Table.row_count])]
      rfl
  · intro db h v sz n fo hsome
    have hrow : (⟨n, fo, []⟩ : Table).insert_row v = .ok ⟨n + 1, fo, []⟩ := rfl
    have hok : db.get_or_create_table h = .ok (db, ⟨n, fo, []⟩) := by
      unfold TSDB.get_or_create_table
      rw [hsome]
    have hins : db.insert v h = .ok ⟨db.schema_,
        updateTable db.tables_ h ⟨n + 1, fo, []⟩⟩ := by
      unfold TSDB.insert
      simp only [hok, hrow]
    have hfsome : ∃ q, db.tables_.find? (fun p => p.1 == h) = some q := by
      unfold TSDB.get_table_ptr at hsome
      cases hf : db.tables_.find? (fun p => p.1 == h) with
      | none => rw [hf] at hsome; simp at hsome
      | some q => exact ⟨q, rfl⟩
    obtain ⟨q, hq⟩ := hfsome
    have hfind' : (TSDB.mk db.schema_
        (updateTable db.tables_ h ⟨n + 1, fo, []⟩)).get_table_ptr h =
        some ⟨n + 1, fo, []⟩ := by
      unfold TSDB.get_table_ptr
      rw [show (TSDB.mk db.schema_
          (updateTable db.tables_ h ⟨n + 1, fo, []⟩)).tables_ =
          updateTable db.tables_ h ⟨n + 1, fo, []⟩ from rfl]
      rw [find?_updateTable_self, hq]
      rfl
    refine ⟨_, hins, hfind', ?_⟩
    unfold TSDB.query_first
    simp only [hfind']
    rw [if_neg (show ¬((⟨n + 1, fo, []⟩ : Table).row_count = 0) from by
      simp [Table.row_count])]
    rfl

/-- C10, witness: part one applied to the fresh store, the U32 handle
and the value [1, 2, 3, 4]; part two applied to the store after that
insert, whose zero-column U32 table holds one row. -/
theorem c10_primitive_insert_witness :
    (∃ db', TSDB.new.insert [1, 2, 3, 4] 2 = .ok db' ∧
      db'.get_table_ptr 2 = some ⟨1, [], []⟩ ∧
      db'.row_count_of 2 = 1 ∧
      db'.query_first 2 4 = .ok (List.replicate 4 0)) ∧
    (∃ db', (⟨Schema.init, [(2, ⟨1, [], []⟩)]⟩ : TSDB).insert [5, 6, 7, 8] 2 = .ok db' ∧
      db'.get_table_ptr 2 = some ⟨1 + 1, [], []⟩ ∧
      db'.query_first 2 4 = .ok (List.replicate 4 0)) :=
  ⟨c10_primitive_insert.1 TSDB.new 2 ⟨4, 4, 0, 0, 2⟩ [1, 2, 3, 4] 4
      (by decide) (by decide) (by decide) (by decide),
   c10_primitive_insert.2.1 ⟨Schema.init, [(2, ⟨1, [], []⟩)]⟩ 2 [5, 6, 7, 8] 4 1 []
      (by decide)⟩

/-! Reachable table states: a table as the Table constructor builds it,
followed by any number of successful insert_row calls. -/

inductive Table.Reachable : Table → Prop where
  | base (field_sizes field_offsets : List Nat) :
      Table.Reachable (Table.new field_sizes field_offsets)
  | step (t : Table) (src : List Byte) (t' : Table) :
      Table.Reachable t → t.insert_row src = .ok t' → Table.Reachable t'

/-- A successful run of the insert loop extends every column by exactly
its own element size. -/
theorem insert_cols_growth (cols : List Column) (offs : List Nat) (v : List Byte)
    (cols' : List Column) (h : Table.insert_cols cols offs v = .ok cols') :
    ∀ c' ∈ cols', ∃ c ∈ cols, c'.elem_size_ = c.elem_size_ ∧
      c'.data_.length = c.data_.length + c.elem_size_ := by
  induction cols generalizing offs cols' with
  | nil =>
    cases h
    intro c' hc'
    simp at hc'
  | cons c cs ih =>
    cases offs with
    | nil => exact Except.noConfusion h
    | cons o os =>
      unfold Table.insert_cols at h
      by_cases hb : o + c.elem_size_ ≤ v.length
      · rw [if_pos hb] at h
        cases hrec : Table.insert_cols cs os v with
        | error e => rw [hrec] at h; exact Except.noConfusion h
        | ok cs' =>
          rw [hrec] at h
          cases h
          intro c' hc'
          rcases List.mem_cons.mp hc' with hc' | hc'
          · subst hc'
            refine ⟨c, List.mem_cons_self _ _, rfl, ?_⟩
            show (c.data_ ++ slice v o c.elem_size_).length = _
            rw [List.length_append, slice_length v o c.elem_size_ hb]
          · obtain ⟨c₀, hmem, h1, h2⟩ := ih os cs' hrec c' hc'
            exact ⟨c₀, List.mem_cons_of_mem _ hmem, h1, h2⟩
      · rw [if_neg hb] at h
        exact Except.noConfusion h

/-- In every reachable table state, the data length of every column is
the row counter times the element size of that column. -/
theorem reachable_column_data (t : Table) (ht : t.Reachable) :
    ∀ c ∈ t.columns_, c.data_.length = t.row_count_ * c.elem_size_ := by
  induction ht with
  | base field_sizes field_offsets =>
    intro c hc
    obtain ⟨sz, _, rfl⟩ := List.mem_map.mp hc
    simp [Table.new]
  | step t src t' _ hins ih =>
    intro c hc
    unfold Table.insert_row at hins
    cases hic : Table.insert_cols t.columns_ t.field_offsets_ src with
    | error e => rw [hic] at hins; exact Except.noConfusion hins
    | ok cols' =>
      rw [hic] at hins
      cases hins
      obtain ⟨c₀, hmem, h1, h2⟩ := insert_cols_growth _ _ _ _ hic c hc
      have h3 := ih c₀ hmem
      show c.data_.length = (t.row_count_ + 1) * c.elem_size_
      rw [h2, h3, h1]
      ring

/-- C9, counterexample.  The claim asserts equal row counts across all
columns of a reachable table and that Table::row_count() equals the
row count of column 0.  Registering an empty struct (size 0), then a
struct with a field of that empty type and a u8 field, and inserting
one row, yields a table whose column 0 (element size 0) reports row
count 0 while column 1 reports 1 and Table::row_count() returns 1. -/
theorem c9_counterexample :
    (TSDB.new.register_struct "Empty" []).map (fun p => p.2) = .ok 12 ∧
    ((TSDB.new.register_struct "Empty" []).bind (fun p =>
        (p.1.register_struct "S" [("a", 12), ("b", 0)]).bind (fun q =>
          (q.1.insert [7] q.2).map (fun db =>
            (db.get_table_ptr q.2).map (fun t =>
              (t.row_count, t.columns_.map Column.row_count)))))) =
      .ok (some (1, [0, 1])) ∧
    ¬ ((0 : Nat) = 1) :=
  ⟨by decide, by decide, by decide⟩

/-- C9, amended: in every reachable table state, every column whose
element size is positive has row count equal to Table::row_count(),
and a column with element size 0 always reports row count 0 (its data
stays empty).  In particular all positive-element-size columns agree,
and row_count() equals the row count of column 0 whenever column 0 has
positive element size — but not when it has element size 0, as the
counterexample shows. -/
theorem c9_column_row_counts :
    ∀ t : Table, t.Reachable →
      (∀ c ∈ t.columns_, c.data_.length = t.row_count * c.elem_size_) ∧
      (∀ c ∈ t.columns_, 0 < c.elem_size_ → c.row_count = t.row_count) ∧
      (∀ c ∈ t.columns_, c.elem_size_ = 0 → c.row_count = 0) ∧
      (∀ c₀, t.columns_.get? 0 = some c₀ → 0 < c₀.elem_size_ →
        t.row_count = c₀.row_count) := by
  intro t ht
  have hdata := reachable_column_data t ht
  refine ⟨hdata, ?_, ?_, ?_⟩
  · intro c hc hpos
    unfold Column.row_count
    rw [if_pos hpos, hdata c hc]
    exact Nat.mul_div_cancel _ hpos
  · intro c hc hzero
    unfold Column.row_count
    rw [if_neg (by omega)]
  · intro c₀ hc₀ hpos
    have hmem : c₀ ∈ t.columns_ := List.get?_mem hc₀
    unfold Column.row_count
    rw [if_pos hpos, hdata c₀ hmem]
    exact (Nat.mul_div_cancel _ hpos).symm

/-- C9, witness: the amended statement applied to a freshly constructed
single-column table of element size 4. -/
theorem c9_column_row_counts_witness :
    (∀ c ∈ (Table.new [4] [0]).columns_,
      c.data_.length = (Table.new [4] [0]).row_count * c.elem_size_) ∧
    (∀ c ∈ (Table.new [4] [0]).columns_, 0 < c.elem_size_ →
      c.row_count = (Table.new [4] [0]).row_count) ∧
    (∀ c ∈ (Table.new [4] [0]).columns_, c.elem_size_ = 0 → c.row_count = 0) ∧
    (∀ c₀, (Table.new [4] [0]).columns_.get? 0 = some c₀ → 0 < c₀.elem_size_ →
      (Table.new [4] [0]).row_count = c₀.row_count) :=
  c9_column_row_counts (Table.new [4] [0]) (Table.Reachable.base [4] [0])

/-- The store obtained from a fresh store by registering the struct
S with the single u64 field x: handle 12, size 8, one field at
offset 0.  The literal below is verified against an actual
registration in the C1 counterexample. -/
def dbS : TSDB :=
  ⟨{ types_ := Schema.init.types_ ++ [⟨8, 8, 0, 1, STRUCT_KIND⟩]
   , type_names_ := Schema.init.type_names_ ++ ["S"]
   , field_types_ := [3]
   , field_offsets_ := [0]
   , field_names_ := ["x"] }, []⟩

/-- C1, counterexample.  The claim states that insert fails loudly
before touching any column whenever the caller value size differs from
the registered size.  The struct S has registered size 8; inserting a
16-byte value succeeds without any error and appends a row — the
first 8 bytes — to the column.  No size check exists in the source:
insert has only a static_assert on trivial copyability. -/
theorem c1_counterexample :
    TSDB.new.register_struct "S" [("x", 3)] = .ok (dbS, 12) ∧
    dbS.schema_.size_of 12 = .ok 8 ∧
    (List.replicate 16 7).length = 16 ∧
    (16 : Nat) ≠ 8 ∧
    dbS.insert (List.replicate 16 7) 12 =
      .ok ⟨dbS.schema_, [(12, ⟨1, [0], [⟨8, List.replicate 8 7⟩]⟩)]⟩ :=
  ⟨by decide, by decide, by decide, by decide, by decide⟩

/-- C1, amended: no size validation is performed on insert or query.
The result of insert depends only on the bytes of the value inside the
registered field ranges: two values of different sizes that agree on
every field range (and contain them all) are inserted identically.
query_first performs no size check either: with no table under the
handle it returns a zero value of whatever size the caller asks
for.  (A value too small to contain a field range leads to the
unchecked out-of-bounds read of insert_row, not to a controlled
failure.) -/
theorem c1_no_size_check :
    (∀ (db : TSDB) (h : Nat) (db₁ : TSDB) (t : Table) (v₁ v₂ : List Byte),
      db.get_or_create_table h = .ok (db₁, t) →
      (∀ i, i < t.columns_.length →
        t.field_offsets_.getD i 0 + (t.columns_.getD i ⟨0, []⟩).elem_size_ ≤ v₁.length ∧
        t.field_offsets_.getD i 0 + (t.columns_.getD i ⟨0, []⟩).elem_size_ ≤ v₂.length ∧
        slice v₁ (t.field_offsets_.getD i 0) ((t.columns_.getD i ⟨0, []⟩).elem_size_) =
          slice v₂ (t.field_offsets_.getD i 0) ((t.columns_.getD i ⟨0, []⟩).elem_size_)) →
      db.insert v₁ h = db.insert v₂ h) ∧
    (∀ (db : TSDB) (h sz : Nat), db.get_table_ptr h = none →
      db.query_first h sz = .ok (List.replicate sz 0)) := by
  constructor
  · intro db h db₁ t v₁ v₂ hok hb
    have hrow : t.insert_row v₁ = t.insert_row v₂ := by
      unfold Table.insert_row
      rw [insert_cols_congr t.columns_ t.field_offsets_ v₁ v₂
        (fun i hi => (hb i hi).1) (fun i hi => (hb i hi).2.1)
        (fun i hi => (hb i hi).2.2)]
    unfold TSDB.insert
    simp only [hok, hrow]
  · intro db h sz hnone
    unfold TSDB.query_first
    rw [hnone]

/-- C1, witness: on the store holding struct S (one u64 field at
offset 0, size 8), inserting a 16-byte value of sevens and an 8-byte
value of sevens has the same effect; querying an absent handle with a
mismatched caller size returns zeros. -/
theorem c1_no_size_check_witness :
    dbS.insert (List.replicate 16 7) 12 = dbS.insert (List.replicate 8 7) 12 ∧
    TSDB.new.query_first 13 9 = .ok (List.replicate 9 0) :=
  ⟨c1_no_size_check.1 dbS 12 ⟨dbS.schema_, [(12, Table.new [8] [0])]⟩
      (Table.new [8] [0]) (List.replicate 16 7) (List.replicate 8 7)
      (by decide) (by decide),
   c1_no_size_check.2 TSDB.new 13 9 (by decide)⟩

/-- C3, counterexample.  The claim states that query_first immediately
after a single insert returns a value byte-identical to the inserted
one.  The struct P with a u8 field at offset 0 and a u16 field at
offset 2 has size 4 and one padding byte at offset 1.  Inserting the
value [10, 99, 20, 30] (whose size 4 matches the registered size) and
querying returns [10, 0, 20, 30]: the field bytes round-trip but the
padding byte 99 comes back as 0, because insert_row copies only the
field ranges into columns and query_first decodes into a
zero-filled result. -/
theorem c3_counterexample :
    (TSDB.new.register_struct "P" [("a", 0), ("b", 1)]).map
      (fun p => (p.2, p.1.schema_.size_of p.2, p.1.schema_.field_offsets p.2)) =
      .ok (12, .ok 4, .ok [0, 2]) ∧
    ((TSDB.new.register_struct "P" [("a", 0), ("b", 1)]).bind (fun p =>
        (p.1.insert [10, 99, 20, 30] p.2).bind (fun db =>
          db.query_first p.2 4))) = .ok [10, 0, 20, 30] ∧
    ([10, 0, 20, 30] : List Byte) ≠ [10, 99, 20, 30] :=
  ⟨by decide, by decide, by decide⟩

/-- C3, amended: for a registered struct type with sound layout
(chained non-overlapping field ranges ending inside the registered
size — which c5_layout_invariants establishes for every registration
without u32 overflow) and a value of exactly the registered size,
query_first immediately after a single insert on a store whose table
for the handle was absent or empty returns a value of the same size
that agrees with the inserted value on every registered field byte
range; bytes outside every field range (padding) read back as zero. -/
theorem c3_roundtrip_fields :
    ∀ (db : TSDB) (h : Nat) (m : TypeMeta) (fts offs szs : List Nat) (v : List Byte),
      db.schema_.meta_of h = .ok m →
      db.schema_.field_types h = .ok fts →
      db.schema_.field_offsets h = .ok offs →
      fts.mapM (fun ft => db.schema_.size_of ft) = .ok szs →
      szs.length = offs.length →
      (∀ i, i + 1 < offs.length →
        offs.getD i 0 + szs.getD i 0 ≤ offs.getD (i + 1) 0) →
      (offs ≠ [] →
        offs.getD (offs.length - 1) 0 + szs.getD (offs.length - 1) 0 ≤ m.size_) →
      v.length = m.size_ →
      (db.get_table_ptr h = none ∨ db.get_table_ptr h = some (Table.new szs offs)) →
      ∃ db' w, db.insert v h = .ok db' ∧
        db'.query_first h m.size_ = .ok w ∧
        w.length = v.length ∧
        (∀ i, i < offs.length →
          slice w (offs.getD i 0) (szs.getD i 0) = slice v (offs.getD i 0) (szs.getD i 0)) ∧
        (∀ q, q < v.length →
          (∀ i, i < offs.length → q < offs.getD i 0 ∨ offs.getD i 0 + szs.getD i 0 ≤ q) →
          w.get? q = some 0) := by
  intro db h m fts offs szs v hmeta hfts hoffs hszs hlen hchain hlast hv htab
  have hfb : ∀ i, i < offs.length → offs.getD i 0 + szs.getD i 0 ≤ m.size_ := by
    have key : ∀ d i, i < offs.length → offs.length - 1 - i = d →
        offs.getD i 0 + szs.getD i 0 ≤ m.size_ := by
      intro d
      induction d with
      | zero =>
        intro i hi hd
        have hieq : i = offs.length - 1 := by omega
        subst hieq
        exact hlast (by intro hc; rw [hc] at hi; simp at hi)
      | succ k ihk =>
        intro i hi hd
        have h1 : i + 1 < offs.length := by omega
        have h2 := hchain i h1
        have h3 := ihk (i + 1) (by omega) (by omega)
        omega
    intro i hi
    exact key (offs.length - 1 - i) i hi rfl
  obtain ⟨db₁, hok⟩ : ∃ db₁, db.get_or_create_table h = .ok (db₁, Table.new szs offs) := by
    rcases htab with hnone | hsome
    · refine ⟨⟨db.schema_, db.tables_ ++ [(h, Table.new szs offs)]⟩, ?_⟩
      unfold TSDB.get_or_create_table
      rw [hnone]
      simp only [hfts, hoffs, hszs]
    · exact ⟨db, by unfold TSDB.get_or_create_table; rw [hsome]⟩
  obtain ⟨hsch, hself, hother, hrc0⟩ := get_or_create_cases db h db₁ _ hok
  have hins_cols : Table.insert_cols ((Table.new szs offs).columns_)
      ((Table.new szs offs).field_offsets_) v =
      .ok (List.zipWith (fun sz o => (⟨sz, slice v o sz⟩ : Column)) szs offs) := by
    show Table.insert_cols (szs.map (fun sz => ⟨sz, []⟩)) offs v = _
    exact insert_cols_new szs offs v (by omega)
      (fun i hi => by rw [hv]; exact hfb i (by omega))
  have hrow : (Table.new szs offs).insert_row v =
      .ok ⟨1, offs, List.zipWith (fun sz o => (⟨sz, slice v o sz⟩ : Column)) szs offs⟩ := by
    unfold Table.insert_row
    rw [hins_cols]
    rfl
  have hinsert : db.insert v h = .ok ⟨db₁.schema_,
      updateTable db₁.tables_ h
        ⟨1, offs, List.zipWith (fun sz o => (⟨sz, slice v o sz⟩ : Column)) szs offs⟩⟩ := by
    unfold TSDB.insert
    simp only [hok, hrow]
  have hfind' : (TSDB.mk db₁.schema_
      (updateTable db₁.tables_ h
        ⟨1, offs, List.zipWith (fun sz o => (⟨sz, slice v o sz⟩ : Column)) szs offs⟩)).get_table_ptr h =
      some ⟨1, offs, List.zipWith (fun sz o => (⟨sz, slice v o sz⟩ : Column)) szs offs⟩ := by
    unfold TSDB.get_table_ptr
    rw [show (TSDB.mk db₁.schema_
        (updateTable db₁.tables_ h
          ⟨1, offs, List.zipWith (fun sz o => (⟨sz, slice v o sz⟩ : Column)) szs offs⟩)).tables_ =
        updateTable db₁.tables_ h
          ⟨1, offs, List.zipWith (fun sz o => (⟨sz, slice v o sz⟩ : Column)) szs offs⟩ from rfl]
    rw [find?_updateTable_self]
    unfold TSDB.get_table_ptr at hself
    cases hf : db₁.tables_.find? (fun p => p.1 == h) with
    | none => rw [hf] at hself; simp at hself
    | some q => rfl
  have hch : chained_from 0 offs szs :=
    chained_from_of_indexed offs szs 0 (fun _ => Nat.zero_le _) hchain
  obtain ⟨w, hread, hwlen, hbelow, hout, hfield⟩ :=
    read_cols_fresh offs szs v (List.replicate m.size_ 0) 0 hlen hch
      (fun i hi => by rw [List.length_replicate]; exact hfb i hi)
      (fun i hi => by rw [hv]; exact hfb i hi)
  have hquery : (TSDB.mk db₁.schema_
      (updateTable db₁.tables_ h
        ⟨1, offs, List.zipWith (fun sz o => (⟨sz, slice v o sz⟩ : Column)) szs offs⟩)).query_first
      h m.size_ = .ok w := by
    unfold TSDB.query_first
    simp only [hfind']
    rw [if_neg (show ¬((⟨1, offs,
        List.zipWith (fun sz o => (⟨sz, slice v o sz⟩ : Column)) szs offs⟩ : Table).row_count = 0)
      from by simp [Table.row_count])]
    exact hread
  refine ⟨_, w, hinsert, hquery, by rw [hwlen, List.length_replicate, hv], ?_, ?_⟩
  · intro i hi
    apply List.ext_get?
    intro j
    by_cases hj : j < szs.getD i 0
    · rw [slice_get? _ _ _ _ hj, slice_get? _ _ _ _ hj]
      exact hfield i hi j hj
    · have hl1 : (slice w (offs.getD i 0) (szs.getD i 0)).length = szs.getD i 0 :=
        slice_length _ _ _ (by rw [hwlen, List.length_replicate]; exact hfb i hi)
      have hl2 : (slice v (offs.getD i 0) (szs.getD i 0)).length = szs.getD i 0 :=
        slice_length _ _ _ (by rw [hv]; exact hfb i hi)
      rw [List.get?_eq_none.mpr (by omega), List.get?_eq_none.mpr (by omega)]
  · intro q hq houtq
    rw [hout q houtq, List.get?_eq_getElem?]
    exact List.getElem?_replicate_of_lt (by omega)

/-- C3, witness: the amended round trip applied to the struct S (one
u64 field, size 8, no padding) and the value [1, 2, 3, 4, 5, 6, 7, 8]
on the store dbS, whose table for handle 12 is absent. -/
theorem c3_roundtrip_fields_witness :
    ∃ db' w, dbS.insert [1, 2, 3, 4, 5, 6, 7, 8] 12 = .ok db' ∧
      db'.query_first 12 8 = .ok w ∧
      w.length = ([1, 2, 3, 4, 5, 6, 7, 8] : List Byte).length ∧
      (∀ i, i < ([0] : List Nat).length →
        slice w (([0] : List Nat).getD i 0) (([8] : List Nat).getD i 0) =
          slice [1, 2, 3, 4, 5, 6, 7, 8] (([0] : List Nat).getD i 0) (([8] : List Nat).getD i 0)) ∧
      (∀ q, q < ([1, 2, 3, 4, 5, 6, 7, 8] : List Byte).length →
        (∀ i, i < ([0] : List Nat).length →
          q < ([0] : List Nat).getD i 0 ∨
          ([0] : List Nat).getD i 0 + ([8] : List Nat).getD i 0 ≤ q) →
        w.get? q = some 0) :=
  c3_roundtrip_fields dbS 12 ⟨8, 8, 0, 1, STRUCT_KIND⟩ [3] [0] [8]
    [1, 2, 3, 4, 5, 6, 7, 8]
    (by decide) (by decide) (by decide) (by decide) (by decide)
    (by intro i hi; simp at hi) (by decide) (by decide) (Or.inl (by decide))

end Tsdb
